import Mathlib

/-!
Verification of the UMich dining menu finder (src/Food.py) against its
natural-language specification.  The Python source is shallowly embedded:
pure text processing becomes functions on `String` / `List Char`, the
regex vocabulary used for tag extraction becomes an explicit word-phrase
matcher with Python `re` semantics (word boundaries, `\s*` joins,
case-insensitive matching, leftmost non-overlapping substitution), and
the network fetch is abstracted by an outcome value.
-/

set_option maxRecDepth 4000

namespace Food

/-! ### Character classes (ASCII model of Python `str` / `re` classes) -/

/-- Whitespace characters recognised by Python's `\s` and `str.strip()`
(ASCII fragment; after normalisation only `' '` ever occurs). -/
def isSpaceChar (c : Char) : Bool :=
  c = ' ' || c = '\t' || c = '\n' || c = '\r' || c = '\x0b' || c = '\x0c'

/-- Word characters for Python's `\b` word boundaries (ASCII alphanumerics,
underscore, and the subscript two that appears in the `co₂` patterns). -/
def isWordChar (c : Char) : Bool :=
  (65 ≤ c.toNat && c.toNat ≤ 90) || (97 ≤ c.toNat && c.toNat ≤ 122) ||
  (48 ≤ c.toNat && c.toNat ≤ 57) || c = '_' || c = '₂'

/-- ASCII letter test (Python `str.title` treats cased characters). -/
def isAlphaChar (c : Char) : Bool :=
  (65 ≤ c.toNat && c.toNat ≤ 90) || (97 ≤ c.toNat && c.toNat ≤ 122)

/-- ASCII lowercasing, modelling Python `str.casefold` / `re.I` on the
characters this program manipulates. -/
def toLowerCh (c : Char) : Char :=
  if 65 ≤ c.toNat && c.toNat ≤ 90 then Char.ofNat (c.toNat + 32) else c

/-- ASCII uppercasing (used by the model of Python `str.title`). -/
def toUpperCh (c : Char) : Char :=
  if 97 ≤ c.toNat && c.toNat ≤ 122 then Char.ofNat (c.toNat - 32) else c

/-! ### `_normalize_spaces` and `item_key` (Food.py lines 91-92) -/

/-- One pass of `re.sub(r"\s+", " ", s)`: every maximal whitespace run is
replaced by a single space.  The flag records whether the previous
character was part of a whitespace run. -/
def collapseWS (prevSpace : Bool) : List Char → List Char
  | [] => []
  | c :: cs =>
    if isSpaceChar c then
      if prevSpace then collapseWS true cs else ' ' :: collapseWS true cs
    else c :: collapseWS false cs

/-- Python `str.strip()` (no argument): drop whitespace from both ends. -/
def stripEnds (l : List Char) : List Char :=
  ((l.dropWhile isSpaceChar).reverse.dropWhile isSpaceChar).reverse

/-- `_normalize_spaces = lambda s: re.sub(r"\s+", " ", s or "").strip()`. -/
def normalizeSpaces (s : String) : String :=
  String.mk (stripEnds (collapseWS false s.data))

/-- The `s or ""` guard of `_normalize_spaces` applied to a possibly
absent (`None`) argument. -/
def normalizeSpacesOpt (s : Option String) : String :=
  normalizeSpaces (s.getD "")

/-- Python `str.casefold()` on the ASCII text this program handles. -/
def casefoldStr (s : String) : String :=
  String.mk (s.data.map toLowerCh)

/-- `def item_key(name): return _normalize_spaces(name).casefold()`. -/
def item_key (name : String) : String :=
  casefoldStr (normalizeSpaces name)

/-! ### Generic string operations used by the Python code -/

/-- Python string `<`: lexicographic comparison by code point. -/
def listCharLt : List Char → List Char → Bool
  | [], [] => false
  | [], _ :: _ => true
  | _ :: _, [] => false
  | a :: as, b :: bs =>
    if a.toNat < b.toNat then true
    else if b.toNat < a.toNat then false
    else listCharLt as bs

/-- Python string `<` on `String`. -/
def strLt (a b : String) : Bool := listCharLt a.data b.data

/-- Insert into a strictly sorted list, dropping duplicates. -/
def insertSortedDedup (x : String) : List String → List String
  | [] => [x]
  | y :: ys =>
    if strLt x y then x :: y :: ys
    else if strLt y x then y :: insertSortedDedup x ys
    else y :: ys

/-- Python `sorted(set(l))`: the strictly increasing list of the distinct
elements of `l`. -/
def sortedDedup (l : List String) : List String :=
  l.foldl (fun acc x => insertSortedDedup x acc) []

/-- Python `str.startswith`. -/
def strStartsWith (s pre : String) : Bool :=
  pre.data.isPrefixOf s.data

/-- Python `str.replace(old, new)` on char lists: replace every
non-overlapping occurrence, scanning left to right (`old` is never empty
in this program).  `fuel` bounds the recursion by the text length. -/
def replaceAllAux (old new : List Char) : Nat → List Char → List Char
  | 0, s => s
  | _ + 1, [] => []
  | fuel + 1, c :: cs =>
    if old.isPrefixOf (c :: cs) then
      new ++ replaceAllAux old new fuel ((c :: cs).drop old.length)
    else c :: replaceAllAux old new fuel cs

/-- Python `str.replace(old, new)`. -/
def replaceAll (s old new : String) : String :=
  String.mk (replaceAllAux old.data new.data s.data.length s.data)

/-- Python `str.title()` (ASCII model): the first letter of each
letter-run is uppercased, the rest lowercased. -/
def titleAux (prevCased : Bool) : List Char → List Char
  | [] => []
  | c :: cs =>
    if isAlphaChar c then
      (if prevCased then toLowerCh c else toUpperCh c) :: titleAux true cs
    else c :: titleAux false cs

/-- Python `str.title()`. -/
def titleCase (s : String) : String :=
  String.mk (titleAux false s.data)

/-- Python `str.strip(chars)` for the separator set `"—-:|• "` used on
extracted item names. -/
def isSeparatorChar (c : Char) : Bool :=
  c = '—' || c = '-' || c = ':' || c = '|' || c = '•' || c = ' '

/-- `str.strip("—-:|• ")`. -/
def stripSeparators (s : String) : String :=
  String.mk (((s.data.dropWhile isSeparatorChar).reverse.dropWhile isSeparatorChar).reverse)

/-- Substring containment on char lists (Python `in` / `str.contains`
with a metacharacter-free pattern). -/
def listContainsSub (hay needle : List Char) : Bool :=
  match hay with
  | [] => needle.isEmpty
  | _ :: tl => needle.isPrefixOf hay || listContainsSub tl needle

/-- Substring containment on strings. -/
def containsSub (hay needle : String) : Bool :=
  listContainsSub hay.data needle.data

/-! ### Word-phrase regex matcher

Every tag regex in `ATTR_REGEXES` is an alternation of phrases of the
shape `\bw₁\s*w₂\s*…\s*wₙ\b` matched case-insensitively, where each `wᵢ`
is a literal word.  Because the words contain no whitespace, the greedy
`\s*` between words matches deterministically (the maximal space run),
so the matcher below needs no backtracking inside a phrase. -/

/-- A `\b` word boundary between an optional previous character and an
optional next character (string edges count as non-word). -/
def wordBoundary (left right : Option Char) : Bool :=
  (match left with | none => false | some c => isWordChar c) !=
  (match right with | none => false | some c => isWordChar c)

/-- Match one literal word (stored lowercase) case-insensitively at the
head of the text, returning the remaining text. -/
def matchWord : List Char → List Char → Option (List Char)
  | [], cs => some cs
  | _ :: _, [] => none
  | w :: ws, c :: cs => if toLowerCh c = w then matchWord ws cs else none

/-- Consume the maximal whitespace run (`\s*`, greedy). -/
def skipSpaces : List Char → List Char
  | [] => []
  | c :: cs => if isSpaceChar c then skipSpaces cs else c :: cs

/-- Match a phrase (its words with `\s*` between consecutive words) at
the head of the text; returns the text after the last word. -/
def matchPhraseWords : List (List Char) → List Char → Option (List Char)
  | [], cs => some cs
  | [w], cs => matchWord w cs
  | w :: ws, cs =>
    match matchWord w cs with
    | none => none
    | some rest => matchPhraseWords ws (skipSpaces rest)

/-- Try the alternatives of one regex at the current position (previous
character `prev`), in alternation order; Python's `re` takes the first
alternative that matches.  Each alternative starts and ends with a word
character, so the surrounding `\b`s reduce to the checks below. -/
def tryAlternatives (alts : List (List (List Char))) (prev : Option Char)
    (cs : List Char) : Option (List Char) :=
  match alts with
  | [] => none
  | a :: rest =>
    if wordBoundary prev cs.head? then
      match matchPhraseWords a cs with
      | some rem =>
        if wordBoundary (cs.take (cs.length - rem.length)).getLast? rem.head? then
          some rem
        else tryAlternatives rest prev cs
      | none => tryAlternatives rest prev cs
    else tryAlternatives rest prev cs

/-- `rx.search(line) is not None`: some alternative matches at some
position. -/
def searchPatAux (alts : List (List (List Char))) (prev : Option Char) :
    List Char → Bool
  | [] => false
  | c :: cs =>
    match tryAlternatives alts prev (c :: cs) with
    | some _ => true
    | none => searchPatAux alts (some c) cs

/-- `rx.sub("", line)`: delete every non-overlapping match, scanning
left to right exactly as Python's `re.sub` does.  The scan continues
after the deleted span with the span's last character as boundary
context.  `fuel` bounds the recursion by the text length (every match
consumes at least one character). -/
def subPatAux (alts : List (List (List Char))) : Nat → Option Char →
    List Char → List Char
  | 0, _, cs => cs
  | _ + 1, _, [] => []
  | fuel + 1, prev, c :: cs =>
    match tryAlternatives alts prev (c :: cs) with
    | some rem =>
      subPatAux alts fuel ((c :: cs).take ((c :: cs).length - rem.length)).getLast? rem
    | none => c :: subPatAux alts fuel (some c) cs

/-- A tag regex value: its list of alternatives, each a list of words
(stored lowercase, as written in the Python pattern). -/
def wordsOfPhrase (ws : List String) : List (List Char) := ws.map String.data

/-- `rx.search(line)` as a Bool, on a `String`. -/
def searchPat (alts : List (List String)) (s : String) : Bool :=
  searchPatAux (alts.map wordsOfPhrase) none s.data

/-- `rx.sub("", line)`, on a `String`. -/
def subPat (alts : List (List String)) (s : String) : String :=
  String.mk (subPatAux (alts.map wordsOfPhrase) s.data.length none s.data)

/-! ### Truncation at detail-section markers (Food.py line 96-98)

`re.split(r"\b(close|Contains:|Nutrition Facts|Serving Size)\b", raw, 1,
flags=re.I)[0]` keeps the text before the first marker occurrence.  These
markers are literal character sequences (the spaces in them are literal),
and the trailing `\b` is evaluated against the marker's own last
character, which for `Contains:` is the non-word `:`. -/

/-- Match a literal marker (stored lowercase) case-insensitively. -/
def matchLiteral : List Char → List Char → Option (List Char)
  | [], cs => some cs
  | _ :: _, [] => none
  | p :: ps, c :: cs => if toLowerCh c = p then matchLiteral ps cs else none

/-- Does any marker match at this position, with `\b` on both sides? -/
def markerMatchesHere (markers : List (List Char)) (prev : Option Char)
    (cs : List Char) : Bool :=
  markers.any fun m =>
    wordBoundary prev m.head? &&
    (match matchLiteral m cs with
     | some rem => wordBoundary m.getLast? rem.head?
     | none => false)

/-- The text before the first marker match (the whole text if none). -/
def truncAux (markers : List (List Char)) (prev : Option Char) :
    List Char → List Char
  | [] => []
  | c :: cs =>
    if markerMatchesHere markers prev (c :: cs) then []
    else c :: truncAux markers (some c) cs

/-- The detail-section markers of the `re.split` pattern. -/
def detailMarkers : List String :=
  ["close", "contains:", "nutrition facts", "serving size"]

/-- `re.split(r"\b(close|Contains:|Nutrition Facts|Serving Size)\b", raw,
1, flags=re.I)[0]`. -/
def truncateAtMarkers (raw : String) : String :=
  String.mk (truncAux (detailMarkers.map String.data) none raw.data)

/-! ### Attribute vocabulary (Food.py lines 50-89) -/

/-- `ATTR_REGEXES`, in the insertion order of the Python dict literal.
Each regex is the list of its alternatives; each alternative the list of
its literal words (`\s*`-joined, `\b`-delimited, case-insensitive).  The
character class `co[2₂]` is expanded into its two one-character cases. -/
def ATTR_REGEXES : List (String × List (List String)) := [
  ("GLUTEN FREE", [["gluten", "free"]]),
  ("HALAL", [["halal"]]),
  ("SPICY", [["spicy"]]),
  ("VEGAN", [["vegan"]]),
  ("VEGETARIAN", [["vegetarian"]]),
  ("KOSHER", [["kosher"]]),
  ("NUTRIENT DENSE LOW MEDIUM", [["nutrient", "dense", "low", "medium"]]),
  ("NUTRIENT DENSE MEDIUM HIGH", [["nutrient", "dense", "medium", "high"]]),
  ("NUTRIENT DENSE LOW", [["nutrient", "dense", "low"]]),
  ("NUTRIENT DENSE MEDIUM", [["nutrient", "dense", "medium"]]),
  ("NUTRIENT DENSE HIGH", [["nutrient", "dense", "high"]]),
  ("CARBON FOOTPRINT LOW", [["carbon", "footprint", "low"], ["co2", "low"], ["co₂", "low"]]),
  ("CARBON FOOTPRINT MEDIUM", [["carbon", "footprint", "medium"], ["co2", "medium"], ["co₂", "medium"]]),
  ("CARBON FOOTPRINT HIGH", [["carbon", "footprint", "high"], ["co2", "high"], ["co₂", "high"]])]

/-- `PRETTY_ATTR_LABEL` (Food.py lines 56-71). -/
def PRETTY_ATTR_LABEL : List (String × String) := [
  ("GLUTEN FREE", "Gluten Free"),
  ("HALAL", "Halal"),
  ("SPICY", "Spicy"),
  ("VEGAN", "Vegan"),
  ("VEGETARIAN", "Vegetarian"),
  ("KOSHER", "Kosher"),
  ("NUTRIENT DENSE LOW", "Nutrient Density: Low"),
  ("NUTRIENT DENSE LOW MEDIUM", "Nutrient Density: Low/Medium"),
  ("NUTRIENT DENSE MEDIUM", "Nutrient Density: Medium"),
  ("NUTRIENT DENSE MEDIUM HIGH", "Nutrient Density: Medium/High"),
  ("NUTRIENT DENSE HIGH", "Nutrient Density: High"),
  ("CARBON FOOTPRINT LOW", "Carbon Footprint: Low"),
  ("CARBON FOOTPRINT MEDIUM", "Carbon Footprint: Medium"),
  ("CARBON FOOTPRINT HIGH", "Carbon Footprint: High")]

/-- Stable descending sort by string length, modelling Python
`sorted(keys, key=len, reverse=True)`: an earlier element precedes later
elements of equal length. -/
def insertByLenDesc (x : String) : List String → List String
  | [] => [x]
  | y :: ys => if y.length > x.length then y :: insertByLenDesc x ys else x :: y :: ys

/-- `sorted(ATTR_REGEXES.keys(), key=len, reverse=True)` — the label
order in which `split_item_and_tags` tests the regexes. -/
def orderedLabels : List String :=
  (ATTR_REGEXES.map Prod.fst).foldr insertByLenDesc []

/-- The regex of a label (`ATTR_REGEXES[label]`). -/
def attrPattern (label : String) : List (List String) :=
  (ATTR_REGEXES.lookup label).getD []

/-! ### `split_item_and_tags` (Food.py lines 94-106) -/

/-- One iteration of the extraction loop: if the label's regex matches
the current line, record the label and delete every match from the
line. -/
def tagScanStep (st : String × List String) (label : String) : String × List String :=
  if searchPat (attrPattern label) st.1 then
    (subPat (attrPattern label) st.1, st.2 ++ [label])
  else st

/-- The extraction loop over a list of labels. -/
def tagScan (labels : List String) (line : String) : String × List String :=
  labels.foldl tagScanStep (line, [])

/-- `split_item_and_tags(raw_line)`: truncate at the first detail
marker, normalise, test the regexes longest label first (deleting the
matches of each found label before testing shorter ones), then strip
the leftover text into the item name and return the sorted tag set. -/
def split_item_and_tags (raw_line : String) : String × List String :=
  let line := normalizeSpaces (truncateAtMarkers raw_line)
  let st := tagScan orderedLabels line
  (stripSeparators (normalizeSpaces st.1), sortedDedup st.2)

/-! ### `group_tag_values` (Food.py lines 108-124) -/

/-- The nutrient-density branch body:
`t.replace("NUTRIENT DENSE", "").strip()` then the two phrase
replacements and `title()`. -/
def ndValue (t : String) : String :=
  titleCase (replaceAll (replaceAll
    (String.mk (stripEnds (replaceAll t "NUTRIENT DENSE" "").data))
    "LOW MEDIUM" "Low/Medium") "MEDIUM HIGH" "Medium/High")

/-- The carbon-footprint branch body:
`t.replace("CARBON FOOTPRINT", "").strip().title()`. -/
def cfValue (t : String) : String :=
  titleCase (String.mk (stripEnds (replaceAll t "CARBON FOOTPRINT" "").data))

/-- Pretty dietary-flag label: `PRETTY_ATTR_LABEL.get(t, t.title())`. -/
def prettyOther (t : String) : String :=
  (PRETTY_ATTR_LABEL.lookup t).getD (titleCase t)

/-- One iteration of the classification loop: state is
`(nd, cf, others)`. -/
def groupStep (st : String × String × List String) (t : String) :
    String × String × List String :=
  if strStartsWith t "NUTRIENT DENSE" then (ndValue t, st.2.1, st.2.2)
  else if strStartsWith t "CARBON FOOTPRINT" then (st.1, cfValue t, st.2.2)
  else (st.1, st.2.1, st.2.2 ++ [prettyOther t])

/-- `group_tag_values(tags)`:
`(nutrient_density, carbon_footprint, other_tags, other_tags_str)`. -/
def group_tag_values (tags : List String) : String × String × List String × String :=
  let st := tags.foldl groupStep ("", "", [])
  (st.1, st.2.1, st.2.2, String.intercalate ", " st.2.2)

/-- The `tags or []` guard of `group_tag_values` applied to a possibly
absent (`None`) tag list. -/
def group_tag_values_opt (tags : Option (List String)) :
    String × String × List String × String :=
  group_tag_values (tags.getD [])

/-! ### Data model: one row of the menu index (Food.py lines 174-186) -/

/-- One parsed menu row, with the fields of the dict built in
`parse_menu_for_day_hall`. -/
structure Row where
  item : String
  item_key : String
  item_display : String
  meal : String
  hall : String
  date : String
  tags : List String
  nutrient_density : String
  carbon_footprint : String
  other_tags : List String
  other_tags_str : String
deriving DecidableEq

/-! ### Fetching (Food.py lines 126-132, 138-142) -/

/-- The outcome of the awaited `session.get` + `resp.text()`: either a
completed HTTP response (status code and body text, whatever the
status), or an exception (connection error, timeout, TLS failure, body
read error, …). -/
inductive FetchOutcome where
  | response (status : Nat) (body : String)
  | failure
deriving DecidableEq

/-- `fetch_text`: returns the response text; any exception is swallowed
and yields `""`.  Totality of this function is the model of "never
raises".  Note the HTTP status is never inspected. -/
def fetch_text : FetchOutcome → String
  | .response _ body => body
  | .failure => ""

/-- A calendar day (`datetime.date()`). -/
structure Date where
  y : Nat
  m : Nat
  d : Nat
deriving DecidableEq

/-- Zero-pad to two digits (`%m`, `%d`). -/
def pad2 (n : Nat) : String := if n < 10 then "0" ++ toString n else toString n

/-- Zero-pad to four digits (`%Y`). -/
def pad4 (n : Nat) : String :=
  if n < 10 then "000" ++ toString n
  else if n < 100 then "00" ++ toString n
  else if n < 1000 then "0" ++ toString n
  else toString n

/-- `date.strftime("%Y-%m-%d")`. -/
def dateStr (dt : Date) : String :=
  pad4 dt.y ++ "-" ++ pad2 dt.m ++ "-" ++ pad2 dt.d

/-- The URL built by `parse_menu_for_day_hall` (Food.py line 142):
`?date=` for today, `?menuDate=` for any other day; `today` is the
current day (`datetime.today().date()`). -/
def menuUrl (base_url : String) (date today : Date) : String :=
  if date = today then base_url ++ "?date=" ++ dateStr date
  else base_url ++ "?menuDate=" ++ dateStr date

/-! ### Per-day dedup (Food.py lines 188-196) -/

/-- The dedup key `(r["date"], r["hall"], r["meal"], r["item_key"])`. -/
def dedupKey (r : Row) : String × String × String × String :=
  (r.date, r.hall, r.meal, r.item_key)

/-- The dedup loop: `seen` is the set of keys already emitted; a row is
kept exactly when its key is new. -/
def dedupGo (seen : List (String × String × String × String)) :
    List Row → List Row
  | [] => []
  | r :: rs =>
    if dedupKey r ∈ seen then dedupGo seen rs
    else r :: dedupGo (dedupKey r :: seen) rs

/-- The dedup pass at the end of `parse_menu_for_day_hall`: first
occurrence of each `(date, hall, meal, item_key)` wins. -/
def dedupRows (results : List Row) : List Row :=
  dedupGo [] results

/-- Modelled from the spec: "within one (hall, date, meal) triple,
first occurrence wins, later duplicates silently dropped" — keep each
row and delete every later row with the same dedup key. -/
def firstOccurrences : List Row → List Row
  | [] => []
  | r :: rs => r :: firstOccurrences (rs.filter fun x => dedupKey x ≠ dedupKey r)
termination_by l => l.length
decreasing_by
  simp only [List.length_cons]
  exact Nat.lt_succ_of_le (List.length_filter_le _ _)

/-! ### Canonical display labels (Food.py lines 221-225) -/

/-- The `first_display` dict: iterate the rows in order, inserting
`item_key ↦ item` only for keys not yet present (`dict.setdefault`). -/
def firstDisplayMap (rows : List Row) : List (String × String) :=
  rows.foldl
    (fun m r => if (m.lookup r.item_key).isSome then m else m ++ [(r.item_key, r.item)])
    []

/-- `df["item_display"] = df["item_key"].map(first_display)` — every
key of `df` is in the dict, so the fallback is never taken. -/
def relabel (rows : List Row) : List Row :=
  let m := firstDisplayMap rows
  rows.map fun r => { r with item_display := ((m.lookup r.item_key).getD r.item_display) }

/-- Modelled from the spec: the canonical display label of a key is the
raw item name of the first entry with that key in result order. -/
def canonicalLabel (rows : List Row) (k : String) : String :=
  match rows.find? (fun r => r.item_key == k) with
  | some r => r.item
  | none => ""

/-! ### The build loop (Food.py lines 198-230, 31-39) -/

/-- `DINING_HALLS` (Food.py lines 31-39). -/
def DINING_HALLS : List (String × String) := [
  ("Bursley", "https://dining.umich.edu/menus-locations/dining-halls/bursley/"),
  ("East Quad", "https://dining.umich.edu/menus-locations/dining-halls/east-quad/"),
  ("Markley", "https://dining.umich.edu/menus-locations/dining-halls/markley/"),
  ("Mosher-Jordan", "https://dining.umich.edu/menus-locations/dining-halls/mosher-jordan/"),
  ("North Quad", "https://dining.umich.edu/menus-locations/dining-halls/north-quad/"),
  ("Twigs at Oxford", "https://dining.umich.edu/menus-locations/dining-halls/twigs-at-oxford/"),
  ("South Quad", "https://dining.umich.edu/menus-locations/dining-halls/south-quad/")]

/-- `WEEKDAY_MEALS` (Food.py line 28). -/
def WEEKDAY_MEALS : List String := ["Breakfast", "Lunch", "Dinner"]

/-- `WEEKEND_MEALS` (Food.py line 29). -/
def WEEKEND_MEALS : List String := ["Brunch", "Dinner"]

/-- The `while cur <= end` day loop, with days as day numbers (the
datetimes all share the start's time of day, so `+ timedelta(days=1)`
and `<=` act on whole days).  `fuel` bounds the loop by the window
length so the definition computes by structural recursion. -/
def daysFromAux : Nat → Nat → Nat → List Nat
  | 0, _, _ => []
  | fuel + 1, cur, endDay =>
    if cur ≤ endDay then cur :: daysFromAux fuel (cur + 1) endDay else []

/-- The day list `[start, start+1, …, end]` of the `while` loop. -/
def daysFrom (cur endDay : Nat) : List Nat :=
  daysFromAux (endDay + 1 - cur) cur endDay

/-- The dispatched tasks: for each day of `[start, end]` in order, one
task per hall of `DINING_HALLS`, carrying `(hall_name, base, day)`. -/
def buildTasks (start endDay : Nat) : List (String × String × Nat) :=
  (daysFrom start endDay).flatMap fun d =>
    DINING_HALLS.map fun hb => (hb.1, hb.2, d)

/-- `build_index_async` with the fetch+parse of one `(hall, day)` task
abstracted by `parse` (its result list; `asyncio.gather` returns the
chunks in task order regardless of completion order).  An empty row
set yields the empty index; otherwise the canonical-display pass runs
over the concatenated rows. -/
def build_index_rows (parse : String → String → Nat → List Row)
    (start endDay : Nat) : List Row :=
  let chunks := (buildTasks start endDay).map fun t => parse t.1 t.2.1 t.2.2
  let rows := chunks.flatten
  if rows.isEmpty then [] else relabel rows

/-! ### Query engine: `update_results` (Food.py lines 362-405) -/

/-- Base selection by item: exact key match, falling back to a
case-folded substring match when the exact match is empty; no selection
(`None` or the empty string are falsy) passes everything through.
`str.contains` is modelled for metacharacter-free patterns. -/
def itemStage (df : List Row) (selected_item_key : Option String) : List Row :=
  match selected_item_key with
  | none => df
  | some k =>
    if k = "" then df
    else
      let f := df.filter fun r => r.item_key == k
      if f.isEmpty then df.filter fun r => containsSub (casefoldStr r.item) k
      else f

/-- Hall filter: `f[f["hall"].isin(hall_filter)]` when the filter is
truthy. -/
def hallStage (f : List Row) (hall_filter : Option (List String)) : List Row :=
  match hall_filter with
  | none => f
  | some hs => if hs.isEmpty then f else f.filter fun r => hs.contains r.hall

/-- Attribute AND filter: `need.issubset(set(t))` — every required raw
tag token must be present in the row's tag list. -/
def attrStage (f : List Row) (attr_filter : Option (List String)) : List Row :=
  match attr_filter with
  | none => f
  | some need =>
    if need.isEmpty then f
    else f.filter fun r => need.all fun a => r.tags.contains a

/-- The sort key order of
`f.sort_values(["date", "hall", "meal", "item_display"])`: dates,
halls, meal names and display labels all compare as Python strings
(lexicographically by code point, case-sensitively). -/
def rowLE (a b : Row) : Bool :=
  strLt a.date b.date ||
  (a.date == b.date &&
    (strLt a.hall b.hall ||
      (a.hall == b.hall &&
        (strLt a.meal b.meal ||
          (a.meal == b.meal &&
            (strLt a.item_display b.item_display || a.item_display == b.item_display))))))

/-- Stable insertion into a `rowLE`-sorted list. -/
def insRow (x : Row) : List Row → List Row
  | [] => [x]
  | y :: ys => if rowLE x y then x :: y :: ys else y :: insRow x ys

/-- The sort of `f.sort_values(["date", "hall", "meal",
"item_display"])`: a stable sort producing a permutation ordered by
`rowLE`. -/
def sortRows (l : List Row) : List Row := l.foldr insRow []

/-- `update_results` up to the final column projection: select by item,
filter by halls, filter by attributes, return `[]` when empty, else the
sorted rows. -/
def update_results (records : List Row) (selected_item_key : Option String)
    (hall_filter attr_filter : Option (List String)) : List Row :=
  let f := attrStage (hallStage (itemStage records selected_item_key) hall_filter) attr_filter
  if f.isEmpty then [] else sortRows f

/-- The record projected into the result table (Food.py line 404). -/
structure OutRow where
  date : String
  meal : String
  hall : String
  item_display : String
  nutrient_density : String
  carbon_footprint : String
  other_tags_str : String
deriving DecidableEq

/-- `f[cols].to_dict("records")`: the column projection of the sorted
result rows. -/
def update_results_records (records : List Row) (selected_item_key : Option String)
    (hall_filter attr_filter : Option (List String)) : List OutRow :=
  (update_results records selected_item_key hall_filter attr_filter).map fun r =>
    ⟨r.date, r.meal, r.hall, r.item_display, r.nutrient_density,
     r.carbon_footprint, r.other_tags_str⟩

/-! ## Lemmas: characters -/

theorem char_eq_of_toNat_eq {a b : Char} (h : a.toNat = b.toNat) : a = b :=
  Char.ext (UInt32.ext h)

theorem toLowerCh_of_upper {c : Char} (h1 : 65 ≤ c.toNat) (h2 : c.toNat ≤ 90) :
    toLowerCh c = Char.ofNat (c.toNat + 32) := by
  unfold toLowerCh
  rw [if_pos]
  simp only [Bool.and_eq_true, decide_eq_true_eq]
  exact ⟨h1, h2⟩

theorem toLowerCh_of_not_upper {c : Char} (h : ¬(65 ≤ c.toNat ∧ c.toNat ≤ 90)) :
    toLowerCh c = c := by
  unfold toLowerCh
  rw [if_neg]
  simp only [Bool.and_eq_true, decide_eq_true_eq, not_and]
  exact fun h1 h2 => h ⟨h1, h2⟩

theorem toLowerCh_toNat_of_upper {c : Char} (h1 : 65 ≤ c.toNat) (h2 : c.toNat ≤ 90) :
    (toLowerCh c).toNat = c.toNat + 32 := by
  have hv : (c.toNat + 32).isValidChar := Or.inl (by unfold Char.toNat at *; omega)
  rw [toLowerCh_of_upper h1 h2, Char.ofNat, dif_pos hv]
  rfl

theorem toLowerCh_idem (c : Char) : toLowerCh (toLowerCh c) = toLowerCh c := by
  by_cases h : 65 ≤ c.toNat ∧ c.toNat ≤ 90
  · have ht := toLowerCh_toNat_of_upper h.1 h.2
    exact toLowerCh_of_not_upper (by omega)
  · rw [toLowerCh_of_not_upper h, toLowerCh_of_not_upper h]

theorem toNat_lt_of_isSpaceChar {c : Char} (h : isSpaceChar c = true) : c.toNat < 33 := by
  simp only [isSpaceChar, Bool.or_eq_true, decide_eq_true_eq] at h
  rcases h with ((((h | h) | h) | h) | h) | h <;> subst h <;> decide

theorem isSpaceChar_toLowerCh (c : Char) : isSpaceChar (toLowerCh c) = isSpaceChar c := by
  by_cases h : 65 ≤ c.toNat ∧ c.toNat ≤ 90
  · have ht := toLowerCh_toNat_of_upper h.1 h.2
    have hs : isSpaceChar (toLowerCh c) = false := by
      refine Bool.eq_false_iff.mpr fun hsp => ?_
      have := toNat_lt_of_isSpaceChar hsp; omega
    have hs2 : isSpaceChar c = false := by
      refine Bool.eq_false_iff.mpr fun hsp => ?_
      have := toNat_lt_of_isSpaceChar hsp; omega
    rw [hs, hs2]
  · rw [toLowerCh_of_not_upper h]

/-! ## Lemmas: the code-point string order -/

theorem listCharLt_trans : ∀ {a b c : List Char},
    listCharLt a b = true → listCharLt b c = true → listCharLt a c = true
  | [], [], _, h, _ => by simp [listCharLt] at h
  | [], _ :: _, [], _, h => by simp [listCharLt] at h
  | [], _ :: _, _ :: _, _, _ => rfl
  | _ :: _, [], _, h, _ => by simp [listCharLt] at h
  | _ :: _, _ :: _, [], _, h => by simp [listCharLt] at h
  | x :: xs, y :: ys, z :: zs, h1, h2 => by
    simp only [listCharLt] at h1 h2 ⊢
    rcases Nat.lt_trichotomy x.toNat y.toNat with hxy | hxy | hxy
    · rcases Nat.lt_trichotomy y.toNat z.toNat with hyz | hyz | hyz
      · rw [if_pos (by omega)]
      · rw [if_pos (by omega)]
      · rw [if_neg (by omega), if_pos (by omega)] at h2
        exact absurd h2 (by simp)
    · rw [if_neg (by omega), if_neg (by omega)] at h1
      rcases Nat.lt_trichotomy y.toNat z.toNat with hyz | hyz | hyz
      · rw [if_pos (by omega)]
      · rw [if_neg (by omega), if_neg (by omega)] at h2 ⊢
        exact listCharLt_trans h1 h2
      · rw [if_neg (by omega), if_pos (by omega)] at h2
        exact absurd h2 (by simp)
    · rw [if_neg (by omega), if_pos (by omega)] at h1
      exact absurd h1 (by simp)

theorem listCharLt_asymm : ∀ {a b : List Char},
    listCharLt a b = true → listCharLt b a = false
  | [], [], h => by simp [listCharLt] at h
  | [], _ :: _, _ => rfl
  | _ :: _, [], h => by simp [listCharLt] at h
  | x :: xs, y :: ys, h => by
    simp only [listCharLt] at h ⊢
    rcases Nat.lt_trichotomy x.toNat y.toNat with hxy | hxy | hxy
    · rw [if_neg (by omega), if_pos (by omega)]
    · rw [if_neg (by omega), if_neg (by omega)] at h ⊢
      exact listCharLt_asymm h
    · rw [if_neg (by omega), if_pos (by omega)] at h
      exact absurd h (by simp)

theorem listCharLt_connex : ∀ {a b : List Char},
    listCharLt a b = false → listCharLt b a = false → a = b
  | [], [], _, _ => rfl
  | [], _ :: _, h, _ => by simp [listCharLt] at h
  | _ :: _, [], _, h => by simp [listCharLt] at h
  | x :: xs, y :: ys, h1, h2 => by
    simp only [listCharLt] at h1 h2
    rcases Nat.lt_trichotomy x.toNat y.toNat with hxy | hxy | hxy
    · rw [if_pos (by omega)] at h1
      exact absurd h1 (by simp)
    · rw [if_neg (by omega), if_neg (by omega)] at h1 h2
      have hx : x = y := char_eq_of_toNat_eq (by omega)
      rw [hx, listCharLt_connex h1 h2]
    · rw [if_pos (by omega)] at h2
      exact absurd h2 (by simp)

theorem strLt_trans {a b c : String} (h1 : strLt a b = true) (h2 : strLt b c = true) :
    strLt a c = true :=
  listCharLt_trans h1 h2

theorem strLt_asymm {a b : String} (h : strLt a b = true) : strLt b a = false :=
  listCharLt_asymm h

theorem strLt_connex {a b : String} (h1 : strLt a b = false) (h2 : strLt b a = false) :
    a = b :=
  String.ext (listCharLt_connex h1 h2)

theorem strLt_irrefl (a : String) : strLt a a = false := by
  refine Bool.eq_false_iff.mpr fun h => ?_
  have := listCharLt_asymm (a := a.data) (b := a.data) h
  rw [Bool.eq_false_iff] at this
  exact this h

/-! ## Lemmas: `sortedDedup` (Python `sorted(set(...))`) -/

theorem mem_insertSortedDedup {x y : String} : ∀ {l : List String},
    y ∈ insertSortedDedup x l ↔ y = x ∨ y ∈ l
  | [] => by simp [insertSortedDedup]
  | z :: zs => by
    simp only [insertSortedDedup]
    by_cases h1 : strLt x z
    · simp [h1, List.mem_cons]
    · by_cases h2 : strLt z x
      · simp only [h1, h2, Bool.false_eq_true, if_false, if_true, List.mem_cons,
          mem_insertSortedDedup (l := zs)]
        tauto
      · have hxz : x = z := strLt_connex (Bool.of_not_eq_true h1) (Bool.of_not_eq_true h2)
        rw [if_neg h1, if_neg h2]
        subst hxz
        simp only [List.mem_cons]
        tauto

theorem pairwise_insertSortedDedup {x : String} : ∀ {l : List String},
    l.Pairwise (fun a b => strLt a b = true) →
    (insertSortedDedup x l).Pairwise (fun a b => strLt a b = true)
  | [], _ => by simp [insertSortedDedup]
  | z :: zs, h => by
    rcases List.pairwise_cons.mp h with ⟨hz, hzs⟩
    simp only [insertSortedDedup]
    by_cases h1 : strLt x z
    · simp only [h1, if_true]
      refine List.pairwise_cons.mpr ⟨?_, h⟩
      intro b hb
      rcases List.mem_cons.mp hb with rfl | hb
      · exact h1
      · exact strLt_trans h1 (hz b hb)
    · by_cases h2 : strLt z x
      · simp only [h1, h2, Bool.false_eq_true, if_false, if_true]
        refine List.pairwise_cons.mpr ⟨?_, pairwise_insertSortedDedup hzs⟩
        intro b hb
        rcases mem_insertSortedDedup.mp hb with rfl | hb
        · exact h2
        · exact hz b hb
      · rw [if_neg h1, if_neg h2]
        exact h

theorem mem_sortedDedup_aux {y : String} : ∀ {l : List String} {acc : List String},
    y ∈ l.foldl (fun acc x => insertSortedDedup x acc) acc ↔ y ∈ acc ∨ y ∈ l
  | [], acc => by simp
  | x :: xs, acc => by
    simp only [List.foldl_cons, mem_sortedDedup_aux (l := xs), mem_insertSortedDedup,
      List.mem_cons]
    tauto

theorem mem_sortedDedup {y : String} {l : List String} :
    y ∈ sortedDedup l ↔ y ∈ l := by
  unfold sortedDedup
  rw [mem_sortedDedup_aux]
  simp

theorem pairwise_sortedDedup_aux : ∀ {l : List String} {acc : List String},
    acc.Pairwise (fun a b => strLt a b = true) →
    (l.foldl (fun acc x => insertSortedDedup x acc) acc).Pairwise (fun a b => strLt a b = true)
  | [], _, h => h
  | x :: xs, acc, h => by
    simp only [List.foldl_cons]
    exact pairwise_sortedDedup_aux (pairwise_insertSortedDedup h)

theorem pairwise_sortedDedup {l : List String} :
    (sortedDedup l).Pairwise (fun a b => strLt a b = true) :=
  pairwise_sortedDedup_aux List.Pairwise.nil

/-- In a strictly sorted list, the last element is not below any
member. -/
theorem sorted_getLast_max : ∀ {l : List String},
    l.Pairwise (fun a b => strLt a b = true) →
    ∀ {x m : String}, x ∈ l → l.getLast? = some m → strLt m x = false
  | [], _, _, _, hx, _ => by simp at hx
  | [a], _, x, m, hx, hm => by
    simp at hx hm
    subst hx; subst hm
    exact strLt_irrefl x
  | a :: b :: t, h, x, m, hx, hm => by
    rcases List.pairwise_cons.mp h with ⟨ha, ht⟩
    rw [List.getLast?_cons_cons] at hm
    rcases List.mem_cons.mp hx with rfl | hx
    · have hm_mem : m ∈ b :: t := by
        rcases List.getLast?_eq_some_iff.mp hm with ⟨ys, hys⟩
        rw [hys]
        simp
      exact strLt_asymm (ha m hm_mem)
    · exact sorted_getLast_max ht hx hm

/-! ## Lemmas: the classification fold of `group_tag_values` -/

theorem getLast?_cons_eq {α : Type} (a : α) : ∀ (l : List α),
    (a :: l).getLast? = match l.getLast? with | some x => some x | none => some a
  | [] => rfl
  | b :: t => by
    rw [List.getLast?_cons_cons]
    have hne : (b :: t).getLast?.isSome = true := List.getLast?_isSome.mpr (by simp)
    rcases Option.isSome_iff_exists.mp hne with ⟨x, hx⟩
    rw [hx]

theorem isPrefixOf_head_eq {a : Char} : ∀ {p l : List Char},
    (a :: p).isPrefixOf l = true → l.head? = some a := by
  intro p l h
  cases l with
  | nil => simp [List.isPrefixOf] at h
  | cons b bs =>
    simp only [List.isPrefixOf, Bool.and_eq_true] at h
    have hab : a = b := eq_of_beq h.1
    simp [hab]

/-- Which prefix a token starts with decides its `group_tag_values`
branch; the two ordinal families have incompatible prefixes. -/
theorem nd_cf_exclusive {t : String} (h : strStartsWith t "NUTRIENT DENSE" = true) :
    strStartsWith t "CARBON FOOTPRINT" = false := by
  unfold strStartsWith at *
  refine Bool.eq_false_iff.mpr fun hcf => ?_
  have h1 : t.data.head? = some 'N' :=
    isPrefixOf_head_eq (a := 'N') (p := "UTRIENT DENSE".data) h
  have h2 : t.data.head? = some 'C' :=
    isPrefixOf_head_eq (a := 'C') (p := "ARBON FOOTPRINT".data) hcf
  rw [h1] at h2
  exact absurd (Option.some.inj h2) (by decide)

/-- The nutrient-density component of the classification fold is the
`ndValue` of the last nutrient-density token (the loop overwrites `nd`
at every such token). -/
theorem group_fold_nd : ∀ (tags : List String) (nd cf : String) (oth : List String),
    (List.foldl groupStep (nd, cf, oth) tags).1 =
      match (tags.filter fun t => strStartsWith t "NUTRIENT DENSE").getLast? with
      | some t => ndValue t
      | none => nd
  | [], nd, cf, oth => rfl
  | t :: ts, nd, cf, oth => by
    rw [List.foldl_cons]
    by_cases hnd : strStartsWith t "NUTRIENT DENSE" = true
    · rw [show groupStep (nd, cf, oth) t = (ndValue t, cf, oth) by
        unfold groupStep; rw [if_pos hnd]]
      rw [group_fold_nd ts (ndValue t) cf oth,
        List.filter_cons_of_pos (p := fun s => strStartsWith s "NUTRIENT DENSE") hnd,
        getLast?_cons_eq]
      cases (ts.filter fun t => strStartsWith t "NUTRIENT DENSE").getLast? <;> rfl
    · have hstep : (groupStep (nd, cf, oth) t).1 = nd ∧
          ∃ cf2 oth2, groupStep (nd, cf, oth) t = (nd, cf2, oth2) := by
        unfold groupStep
        rw [if_neg hnd]
        by_cases hcf : strStartsWith t "CARBON FOOTPRINT" = true
        · rw [if_pos hcf]; exact ⟨rfl, _, _, rfl⟩
        · rw [if_neg hcf]; exact ⟨rfl, _, _, rfl⟩
      rcases hstep.2 with ⟨cf2, oth2, hs⟩
      rw [hs, group_fold_nd ts nd cf2 oth2,
        List.filter_cons_of_neg (p := fun s => strStartsWith s "NUTRIENT DENSE") (by simpa using hnd)]

/-- The carbon-footprint component of the classification fold is the
`cfValue` of the last token taking the `elif` branch. -/
theorem group_fold_cf : ∀ (tags : List String) (nd cf : String) (oth : List String),
    (List.foldl groupStep (nd, cf, oth) tags).2.1 =
      match (tags.filter fun t =>
          !strStartsWith t "NUTRIENT DENSE" && strStartsWith t "CARBON FOOTPRINT").getLast? with
      | some t => cfValue t
      | none => cf
  | [], nd, cf, oth => rfl
  | t :: ts, nd, cf, oth => by
    rw [List.foldl_cons]
    by_cases hnd : strStartsWith t "NUTRIENT DENSE" = true
    · rw [show groupStep (nd, cf, oth) t = (ndValue t, cf, oth) by
        unfold groupStep; rw [if_pos hnd]]
      rw [group_fold_cf ts (ndValue t) cf oth,
        List.filter_cons_of_neg
          (p := fun s => !strStartsWith s "NUTRIENT DENSE" && strStartsWith s "CARBON FOOTPRINT")
          (by simp [hnd])]
    · by_cases hcf : strStartsWith t "CARBON FOOTPRINT" = true
      · rw [show groupStep (nd, cf, oth) t = (nd, cfValue t, oth) by
          unfold groupStep; rw [if_neg hnd, if_pos hcf]]
        rw [group_fold_cf ts nd (cfValue t) oth,
          List.filter_cons_of_pos
            (p := fun s => !strStartsWith s "NUTRIENT DENSE" && strStartsWith s "CARBON FOOTPRINT")
            (by simp [hnd, hcf]), getLast?_cons_eq]
        cases (ts.filter fun t =>
          !strStartsWith t "NUTRIENT DENSE" && strStartsWith t "CARBON FOOTPRINT").getLast? <;> rfl
      · rw [show groupStep (nd, cf, oth) t = (nd, cf, oth ++ [prettyOther t]) by
          unfold groupStep; rw [if_neg hnd, if_neg hcf]]
        rw [group_fold_cf ts nd cf (oth ++ [prettyOther t]),
          List.filter_cons_of_neg
            (p := fun s => !strStartsWith s "NUTRIENT DENSE" && strStartsWith s "CARBON FOOTPRINT")
            (by simp [hnd, hcf])]

/-- The `elif` filter coincides with the carbon-footprint prefix filter:
no token has both family prefixes. -/
theorem filter_elif_eq_filter_cf (tags : List String) :
    (tags.filter fun t =>
        !strStartsWith t "NUTRIENT DENSE" && strStartsWith t "CARBON FOOTPRINT") =
      tags.filter fun t => strStartsWith t "CARBON FOOTPRINT" := by
  refine List.filter_congr fun t _ => ?_
  by_cases hcf : strStartsWith t "CARBON FOOTPRINT" = true
  · have hnd : strStartsWith t "NUTRIENT DENSE" = false := by
      refine Bool.eq_false_iff.mpr fun hnd => ?_
      rw [nd_cf_exclusive hnd] at hcf
      exact absurd hcf (by simp)
    rw [hcf, hnd]
    rfl
  · rw [Bool.of_not_eq_true hcf]
    simp

/-- Unfolding equation for `split_item_and_tags` (pure zeta
expansion). -/
theorem split_item_and_tags_eq (raw : String) :
    split_item_and_tags raw =
      (stripSeparators (normalizeSpaces
        (tagScan orderedLabels (normalizeSpaces (truncateAtMarkers raw))).1),
       sortedDedup (tagScan orderedLabels (normalizeSpaces (truncateAtMarkers raw))).2) :=
  rfl

/-- The nutrient-density facet of `group_tag_values` is the value of
the last nutrient-density token. -/
theorem group_nd (tags : List String) :
    (group_tag_values tags).1 =
      match (tags.filter fun t => strStartsWith t "NUTRIENT DENSE").getLast? with
      | some t => ndValue t
      | none => "" :=
  group_fold_nd tags "" "" []

/-- The carbon-footprint facet of `group_tag_values` is the value of
the last carbon-footprint token. -/
theorem group_cf (tags : List String) :
    (group_tag_values tags).2.1 =
      match (tags.filter fun t => strStartsWith t "CARBON FOOTPRINT").getLast? with
      | some t => cfValue t
      | none => "" := by
  have h : (group_tag_values tags).2.1 =
      match (tags.filter fun t =>
          !strStartsWith t "NUTRIENT DENSE" && strStartsWith t "CARBON FOOTPRINT").getLast? with
      | some t => cfValue t
      | none => "" :=
    group_fold_cf tags "" "" []
  rw [h, filter_elif_eq_filter_cf]

/-- The tag list produced by `split_item_and_tags` is strictly sorted
(it is `sorted(set(found))`). -/
theorem extracted_tags_sorted (raw : String) :
    ((split_item_and_tags raw).2).Pairwise (fun a b => strLt a b = true) := by
  simp only [split_item_and_tags_eq]
  exact pairwise_sortedDedup

/-- Claim C10: with several nutrient-density (resp. carbon-footprint)
tokens among a line's extracted tags, the classifier is last-wins over
the sorted token list, so the alphabetically greatest token of the
family determines the reported level; an empty or absent token list
yields the empty-string level for both facets and no dietary flags. -/
theorem claim_C10 (raw : String) :
    ((group_tag_values (split_item_and_tags raw).2).1 =
      ((((split_item_and_tags raw).2.filter fun t =>
          strStartsWith t "NUTRIENT DENSE").getLast?).map ndValue).getD "") ∧
    ((group_tag_values (split_item_and_tags raw).2).2.1 =
      ((((split_item_and_tags raw).2.filter fun t =>
          strStartsWith t "CARBON FOOTPRINT").getLast?).map cfValue).getD "") ∧
    (((split_item_and_tags raw).2.filter fun t => strStartsWith t "NUTRIENT DENSE").all
      (fun t => !strLt ((((split_item_and_tags raw).2.filter fun t =>
          strStartsWith t "NUTRIENT DENSE").getLast?).getD "") t) = true) ∧
    (((split_item_and_tags raw).2.filter fun t => strStartsWith t "CARBON FOOTPRINT").all
      (fun t => !strLt ((((split_item_and_tags raw).2.filter fun t =>
          strStartsWith t "CARBON FOOTPRINT").getLast?).getD "") t) = true) ∧
    group_tag_values [] = ("", "", [], "") ∧
    group_tag_values_opt none = ("", "", [], "") := by
  refine ⟨?_, ?_, ?_, ?_, rfl, rfl⟩
  · rw [group_nd]
    cases ((split_item_and_tags raw).2.filter fun t =>
      strStartsWith t "NUTRIENT DENSE").getLast? <;> rfl
  · rw [group_cf]
    cases ((split_item_and_tags raw).2.filter fun t =>
      strStartsWith t "CARBON FOOTPRINT").getLast? <;> rfl
  · rw [List.all_eq_true]
    intro t ht
    have hsorted := (extracted_tags_sorted raw).filter
      (fun t => strStartsWith t "NUTRIENT DENSE")
    cases hlast : ((split_item_and_tags raw).2.filter fun t =>
        strStartsWith t "NUTRIENT DENSE").getLast? with
    | none =>
      have hnil := List.getLast?_eq_none_iff.mp hlast
      rw [hnil] at ht
      simp at ht
    | some m =>
      simp only [Option.getD_some]
      have hmax := sorted_getLast_max hsorted ht hlast
      simp [hmax]
  · rw [List.all_eq_true]
    intro t ht
    have hsorted := (extracted_tags_sorted raw).filter
      (fun t => strStartsWith t "CARBON FOOTPRINT")
    cases hlast : ((split_item_and_tags raw).2.filter fun t =>
        strStartsWith t "CARBON FOOTPRINT").getLast? with
    | none =>
      have hnil := List.getLast?_eq_none_iff.mp hlast
      rw [hnil] at ht
      simp at ht
    | some m =>
      simp only [Option.getD_some]
      have hmax := sorted_getLast_max hsorted ht hlast
      simp [hmax]

/-! ## Lemmas: the tag extraction fold of `split_item_and_tags` -/

/-- The label list tested by `split_item_and_tags`, computed: the
regexes' labels in stable descending length order. -/
theorem orderedLabels_eq :
    orderedLabels = ["NUTRIENT DENSE MEDIUM HIGH", "NUTRIENT DENSE LOW MEDIUM",
      "CARBON FOOTPRINT MEDIUM", "NUTRIENT DENSE MEDIUM", "CARBON FOOTPRINT HIGH",
      "CARBON FOOTPRINT LOW", "NUTRIENT DENSE HIGH", "NUTRIENT DENSE LOW",
      "GLUTEN FREE", "VEGETARIAN", "KOSHER", "HALAL", "SPICY", "VEGAN"] := by
  decide

/-- The extraction loop only appends to the found-label list. -/
theorem tagScan_found_mono {x : String} : ∀ (labels : List String) (st : String × List String),
    x ∈ st.2 → x ∈ (List.foldl tagScanStep st labels).2
  | [], _, h => h
  | lab :: rest, st, h => by
    rw [List.foldl_cons]
    apply tagScan_found_mono rest
    unfold tagScanStep
    by_cases hc : searchPat (attrPattern lab) st.1 = true
    · rw [if_pos hc]
      exact List.mem_append.mpr (Or.inl h)
    · rw [if_neg hc]
      exact h

/-- Every found label was already found or is among the tested labels. -/
theorem tagScan_found_sub {x : String} : ∀ (labels : List String) (st : String × List String),
    x ∈ (List.foldl tagScanStep st labels).2 → x ∈ st.2 ∨ x ∈ labels
  | [], _, h => Or.inl h
  | lab :: rest, st, h => by
    rw [List.foldl_cons] at h
    rcases tagScan_found_sub rest _ h with h1 | h1
    · unfold tagScanStep at h1
      by_cases hc : searchPat (attrPattern lab) st.1 = true
      · rw [if_pos hc] at h1
        rcases List.mem_append.mp h1 with h2 | h2
        · exact Or.inl h2
        · simp only [List.mem_singleton] at h2
          exact Or.inr (h2 ▸ List.mem_cons_self _ _)
      · rw [if_neg hc] at h1
        exact Or.inl h1
    · exact Or.inr (List.mem_cons_of_mem _ h1)

/-- A label not among the tested ones is found afterwards iff it was
found before. -/
theorem tagScan_found_not_mem {x : String} : ∀ (labels : List String) (st : String × List String),
    x ∉ labels → (x ∈ (List.foldl tagScanStep st labels).2 ↔ x ∈ st.2)
  | [], _, _ => Iff.rfl
  | lab :: rest, st, hn => by
    rw [List.foldl_cons]
    have hx : x ≠ lab := fun h => hn (h ▸ List.mem_cons_self _ _)
    have hrest : x ∉ rest := fun h => hn (List.mem_cons_of_mem _ h)
    rw [tagScan_found_not_mem rest _ hrest]
    unfold tagScanStep
    by_cases hc : searchPat (attrPattern lab) st.1 = true
    · rw [if_pos hc]
      simp [List.mem_append, hx]
    · rw [if_neg hc]

/-- The current line after testing one label. -/
def lineStep (s label : String) : String :=
  if searchPat (attrPattern label) s then subPat (attrPattern label) s else s

/-- The line component of the extraction fold only depends on the line. -/
theorem tagScan_line : ∀ (labels : List String) (st : String × List String),
    (List.foldl tagScanStep st labels).1 = List.foldl lineStep st.1 labels
  | [], _ => rfl
  | lab :: rest, st => by
    rw [List.foldl_cons, List.foldl_cons, tagScan_line rest]
    congr 1
    unfold tagScanStep lineStep
    by_cases hc : searchPat (attrPattern lab) st.1 = true
    · rw [if_pos hc, if_pos hc]
    · rw [if_neg hc, if_neg hc]

/-- Membership in the extracted tag set is membership in the found
list of the extraction fold. -/
theorem mem_extracted_tags {x : String} (raw : String) :
    x ∈ (split_item_and_tags raw).2 ↔
      x ∈ (tagScan orderedLabels (normalizeSpaces (truncateAtMarkers raw))).2 := by
  simp only [split_item_and_tags_eq]
  exact mem_sortedDedup

/-- Every extracted tag is one of the vocabulary labels. -/
theorem extracted_tags_sub {x : String} {raw : String}
    (h : x ∈ (split_item_and_tags raw).2) : x ∈ orderedLabels := by
  rcases tagScan_found_sub orderedLabels
      ((normalizeSpaces (truncateAtMarkers raw), []) : String × List String)
      ((mem_extracted_tags raw).mp h) with h1 | h1
  · exact absurd h1 (List.not_mem_nil x)
  · exact h1

/-- Unfolding equation for one extraction step. -/
theorem tagScanStep_eq (st : String × List String) (label : String) :
    tagScanStep st label =
      if searchPat (attrPattern label) st.1 = true then
        (subPat (attrPattern label) st.1, st.2 ++ [label])
      else st := rfl

/-- Claim C1 (amended): labels are tested longest first and each found
label's matches are deleted before shorter labels are tried.  Whenever
the `nutrient dense medium high` regex matches the truncated,
normalised line, the tag `NUTRIENT DENSE MEDIUM HIGH` is extracted and
the line classifies as level `Medium/High`; the tag
`NUTRIENT DENSE MEDIUM` is additionally extracted exactly when its
regex still matches after the matches of the three longer labels have
been deleted. -/
theorem claim_C1_amended (raw : String)
    (h : searchPat (attrPattern "NUTRIENT DENSE MEDIUM HIGH")
      (normalizeSpaces (truncateAtMarkers raw)) = true) :
    "NUTRIENT DENSE MEDIUM HIGH" ∈ (split_item_and_tags raw).2 ∧
    (group_tag_values (split_item_and_tags raw).2).1 = "Medium/High" ∧
    ("NUTRIENT DENSE MEDIUM" ∈ (split_item_and_tags raw).2 ↔
      searchPat (attrPattern "NUTRIENT DENSE MEDIUM")
        (List.foldl lineStep (normalizeSpaces (truncateAtMarkers raw))
          ["NUTRIENT DENSE MEDIUM HIGH", "NUTRIENT DENSE LOW MEDIUM",
           "CARBON FOOTPRINT MEDIUM"]) = true) ∧
    List.Pairwise (fun a b : String => b.length ≤ a.length) orderedLabels := by
  have hmem1 : "NUTRIENT DENSE MEDIUM HIGH" ∈
      (tagScan orderedLabels (normalizeSpaces (truncateAtMarkers raw))).2 := by
    rw [show tagScan orderedLabels (normalizeSpaces (truncateAtMarkers raw)) =
      List.foldl tagScanStep ((normalizeSpaces (truncateAtMarkers raw), []) :
        String × List String) orderedLabels from rfl]
    rw [orderedLabels_eq, List.foldl_cons]
    apply tagScan_found_mono
    unfold tagScanStep
    rw [if_pos h]
    simp
  have hmemT : "NUTRIENT DENSE MEDIUM HIGH" ∈ (split_item_and_tags raw).2 :=
    (mem_extracted_tags raw).mpr hmem1
  refine ⟨hmemT, ?_, ?_, by decide⟩
  · rw [group_nd]
    have hfmem : "NUTRIENT DENSE MEDIUM HIGH" ∈
        (split_item_and_tags raw).2.filter (fun t => strStartsWith t "NUTRIENT DENSE") :=
      List.mem_filter.mpr ⟨hmemT, by decide⟩
    obtain ⟨m, hm⟩ := Option.isSome_iff_exists.mp
      (List.getLast?_isSome.mpr (List.ne_nil_of_mem hfmem))
    have hmmem : m ∈ (split_item_and_tags raw).2.filter
        (fun t => strStartsWith t "NUTRIENT DENSE") := by
      rcases List.getLast?_eq_some_iff.mp hm with ⟨ys, hys⟩
      rw [hys]
      simp
    have hmnd : strStartsWith m "NUTRIENT DENSE" = true := (List.mem_filter.mp hmmem).2
    have hmvocab : m ∈ orderedLabels := extracted_tags_sub (List.mem_of_mem_filter hmmem)
    have hkey : ∀ x ∈ orderedLabels, strStartsWith x "NUTRIENT DENSE" = true →
        strLt "NUTRIENT DENSE MEDIUM HIGH" x = false := by decide
    have h1 : strLt "NUTRIENT DENSE MEDIUM HIGH" m = false := hkey m hmvocab hmnd
    have h2 : strLt m "NUTRIENT DENSE MEDIUM HIGH" = false :=
      sorted_getLast_max ((extracted_tags_sorted raw).filter _) hfmem hm
    have hmeq : m = "NUTRIENT DENSE MEDIUM HIGH" := strLt_connex h2 h1
    rw [hm, hmeq]
    decide
  · rw [mem_extracted_tags raw]
    rw [show tagScan orderedLabels (normalizeSpaces (truncateAtMarkers raw)) =
      List.foldl tagScanStep ((normalizeSpaces (truncateAtMarkers raw), []) :
        String × List String) orderedLabels from rfl]
    have hdecomp : orderedLabels =
        ["NUTRIENT DENSE MEDIUM HIGH", "NUTRIENT DENSE LOW MEDIUM",
         "CARBON FOOTPRINT MEDIUM"] ++
        ("NUTRIENT DENSE MEDIUM" :: ["CARBON FOOTPRINT HIGH", "CARBON FOOTPRINT LOW",
         "NUTRIENT DENSE HIGH", "NUTRIENT DENSE LOW", "GLUTEN FREE", "VEGETARIAN",
         "KOSHER", "HALAL", "SPICY", "VEGAN"]) := by decide
    rw [hdecomp, List.foldl_append, List.foldl_cons]
    rw [tagScan_found_not_mem _ _ (by decide)]
    have hline3 := tagScan_line
      ["NUTRIENT DENSE MEDIUM HIGH", "NUTRIENT DENSE LOW MEDIUM", "CARBON FOOTPRINT MEDIUM"]
      ((normalizeSpaces (truncateAtMarkers raw), []) : String × List String)
    rw [tagScanStep_eq]
    by_cases hc : searchPat (attrPattern "NUTRIENT DENSE MEDIUM")
        (List.foldl tagScanStep ((normalizeSpaces (truncateAtMarkers raw), []) :
          String × List String)
          ["NUTRIENT DENSE MEDIUM HIGH", "NUTRIENT DENSE LOW MEDIUM",
           "CARBON FOOTPRINT MEDIUM"]).1 = true
    · rw [if_pos hc]
      rw [hline3] at hc
      simp only [List.mem_append, List.mem_singleton]
      exact ⟨fun _ => hc, fun _ => Or.inr trivial⟩
    · rw [if_neg hc]
      rw [hline3] at hc
      constructor
      · intro hmem
        rcases tagScan_found_sub _ _ hmem with h1 | h1
        · exact absurd h1 (List.not_mem_nil _)
        · exact absurd h1 (by decide)
      · intro hs
        exact absurd hs hc

/-- Witness for C1 at a concrete line: the phrase matches, the tag and
the Medium/High level are produced. -/
theorem claim_C1_witness :
    searchPat (attrPattern "NUTRIENT DENSE MEDIUM HIGH")
      (normalizeSpaces (truncateAtMarkers "Orange Chicken Nutrient Dense Medium High")) = true ∧
    "NUTRIENT DENSE MEDIUM HIGH" ∈
      (split_item_and_tags "Orange Chicken Nutrient Dense Medium High").2 ∧
    (group_tag_values
      (split_item_and_tags "Orange Chicken Nutrient Dense Medium High").2).1 = "Medium/High" := by
  have h : searchPat (attrPattern "NUTRIENT DENSE MEDIUM HIGH")
      (normalizeSpaces (truncateAtMarkers "Orange Chicken Nutrient Dense Medium High")) = true := by
    decide
  have hc := claim_C1_amended "Orange Chicken Nutrient Dense Medium High" h
  exact ⟨h, hc.1, hc.2.1⟩

/-- Counterexample to C1 as stated: this line contains the substring
`Nutrient Dense Medium High`, yet extraction also yields the token
`NUTRIENT DENSE MEDIUM` (deleting the longer match splices the
remaining `Nutrient Dense` onto the trailing `Medium`). -/
theorem claim_C1_counterexample :
    containsSub "Nutrient Dense Nutrient Dense Medium High Medium"
      "Nutrient Dense Medium High" = true ∧
    "NUTRIENT DENSE MEDIUM" ∈
      (split_item_and_tags "Nutrient Dense Nutrient Dense Medium High Medium").2 := by
  constructor
  · decide
  · decide

/-! ## Lemmas: per-day dedup (claim C2) -/

/-- The dedup loop keeps exactly the first occurrence of every key not
already seen. -/
theorem dedupGo_eq_firstOccurrences : ∀ (rs : List Row)
    (seen : List (String × String × String × String)),
    dedupGo seen rs = firstOccurrences (rs.filter fun r => decide (dedupKey r ∉ seen))
  | [], seen => by simp [dedupGo, firstOccurrences]
  | r :: rs, seen => by
    unfold dedupGo
    by_cases h : dedupKey r ∈ seen
    · rw [if_pos h, List.filter_cons_of_neg (by simp [h]),
        dedupGo_eq_firstOccurrences rs seen]
    · rw [if_neg h, List.filter_cons_of_pos (by simp [h]),
        dedupGo_eq_firstOccurrences rs (dedupKey r :: seen)]
      have hstep : firstOccurrences (r :: rs.filter fun x => decide (dedupKey x ∉ seen)) =
          r :: firstOccurrences ((rs.filter fun x => decide (dedupKey x ∉ seen)).filter
            fun x => decide (dedupKey x ≠ dedupKey r)) := by
        simp [firstOccurrences]
      rw [hstep, List.filter_filter]
      have hcongr : ∀ x ∈ rs,
          (decide (dedupKey x ≠ dedupKey r) && decide (dedupKey x ∉ seen)) =
            decide (dedupKey x ∉ dedupKey r :: seen) := by
        intro x _
        by_cases h1 : dedupKey x = dedupKey r <;> by_cases h2 : dedupKey x ∈ seen <;>
          simp [h1, h2, List.mem_cons]
      rw [List.filter_congr hcongr]

/-- The deduplicated list is made of rows of the input. -/
theorem firstOccurrences_sub : ∀ {l : List Row} {x : Row},
    x ∈ firstOccurrences l → x ∈ l := by
  intro l
  induction l using firstOccurrences.induct with
  | case1 => intro x hx; simp [firstOccurrences] at hx
  | case2 r rs ih =>
    intro x hx
    rw [show firstOccurrences (r :: rs) =
      r :: firstOccurrences (rs.filter fun y => decide (dedupKey y ≠ dedupKey r)) from by
        simp [firstOccurrences]] at hx
    rcases List.mem_cons.mp hx with rfl | hx
    · exact List.mem_cons_self _ _
    · exact List.mem_cons_of_mem _ (List.mem_of_mem_filter (ih hx))

/-- No two rows of the deduplicated list share a dedup key. -/
theorem firstOccurrences_pairwise : ∀ (l : List Row),
    (firstOccurrences l).Pairwise (fun a b => dedupKey a ≠ dedupKey b) := by
  intro l
  induction l using firstOccurrences.induct with
  | case1 => simp [firstOccurrences]
  | case2 r rs ih =>
    rw [show firstOccurrences (r :: rs) =
      r :: firstOccurrences (rs.filter fun y => decide (dedupKey y ≠ dedupKey r)) from by
        simp [firstOccurrences]]
    refine List.pairwise_cons.mpr ⟨?_, ih⟩
    intro b hb
    have hbf := firstOccurrences_sub hb
    have := (List.mem_filter.mp hbf).2
    simp only [decide_eq_true_eq] at this
    exact fun hrb => this hrb.symm

/-- Claim C2: within one `(date, hall, meal)` triple the per-day parser
returns no two entries with the same item key; the first occurrence in
row order is kept and every later duplicate dropped (`dedupRows`
coincides with the keep-first-delete-later-duplicates pass). -/
theorem claim_C2 (results : List Row) :
    (dedupRows results).Pairwise (fun a b =>
      a.date = b.date → a.hall = b.hall → a.meal = b.meal → a.item_key ≠ b.item_key) ∧
    dedupRows results = firstOccurrences results := by
  have heq : dedupRows results = firstOccurrences results := by
    unfold dedupRows
    rw [dedupGo_eq_firstOccurrences]
    congr 1
    have hall : ∀ x ∈ results,
        decide (dedupKey x ∉ ([] : List (String × String × String × String))) = true := by
      intro x _
      simp
    rw [List.filter_congr hall, List.filter_true]
  refine ⟨?_, heq⟩
  rw [heq]
  refine (firstOccurrences_pairwise results).imp ?_
  intro a b hne hd hh hm hk
  exact hne (by unfold dedupKey; rw [hd, hh, hm, hk])

/-! ## Lemmas: canonical display labels (claim C3) -/

theorem pairwise_of_all {α : Type} {R : α → α → Prop} (h : ∀ a b, R a b) :
    ∀ (l : List α), l.Pairwise R
  | [] => .nil
  | x :: xs => .cons (fun b _ => h x b) (pairwise_of_all h xs)

theorem lookup_append_single {β : Type} (k a : String) (b : β) : ∀ (m : List (String × β)),
    List.lookup k (m ++ [(a, b)]) =
      match List.lookup k m with
      | some v => some v
      | none => if k == a then some b else none
  | [] => by
    rw [List.nil_append, List.lookup_nil, List.lookup_cons, List.lookup_nil]
    cases hka : (k == a) <;> simp
  | (x, y) :: m => by
    rw [List.cons_append, List.lookup_cons, List.lookup_cons]
    cases hkx : (k == x)
    · rw [lookup_append_single k a b m]
    · rfl

/-- Looking a key up in the `first_display` dict finds the item of the
first row with that key. -/
theorem lookup_firstDisplayMap_aux : ∀ (rows : List Row) (acc : List (String × String))
    (k : String),
    List.lookup k (rows.foldl
      (fun m r => if (List.lookup r.item_key m).isSome then m
        else m ++ [(r.item_key, r.item)]) acc) =
      match List.lookup k acc with
      | some v => some v
      | none => (rows.find? fun r => r.item_key == k).map Row.item
  | [], acc, k => by
    rw [List.foldl_nil]
    cases List.lookup k acc <;> simp
  | r :: rows, acc, k => by
    rw [List.foldl_cons, lookup_firstDisplayMap_aux rows _ k]
    by_cases hin : (List.lookup r.item_key acc).isSome = true
    · rw [if_pos hin]
      by_cases hk : r.item_key = k
      · rw [List.find?_cons_of_pos _ (by simp [hk])]
        obtain ⟨v, hv⟩ := Option.isSome_iff_exists.mp hin
        rw [← hk, hv]
      · rw [List.find?_cons_of_neg _ (by simp [hk])]
    · rw [if_neg hin, lookup_append_single]
      cases hacc : List.lookup k acc with
      | some v => rfl
      | none =>
        by_cases hk : r.item_key = k
        · rw [if_pos (by simp [hk]), List.find?_cons_of_pos _ (by simp [hk])]
          rfl
        · rw [if_neg (by simp; exact fun h => hk h.symm),
            List.find?_cons_of_neg _ (by simp [hk])]

/-- `first_display[k]` is the raw item name of the first row whose key
is `k`. -/
theorem lookup_firstDisplayMap (rows : List Row) (k : String) :
    List.lookup k (firstDisplayMap rows) =
      (rows.find? fun r => r.item_key == k).map Row.item := by
  unfold firstDisplayMap
  rw [lookup_firstDisplayMap_aux, List.lookup_nil]

/-- Claim C3: after the canonical-label pass, every row's display label
is the raw item name of the first row sharing its item key, so rows
with equal keys show equal labels. -/
theorem claim_C3 (rows : List Row) :
    relabel rows =
      rows.map (fun r => { r with item_display := canonicalLabel rows r.item_key }) ∧
    (relabel rows).Pairwise
      (fun a b => a.item_key = b.item_key → a.item_display = b.item_display) := by
  have hmap : relabel rows =
      rows.map (fun r => { r with item_display := canonicalLabel rows r.item_key }) := by
    unfold relabel
    refine List.map_congr_left ?_
    intro r hr
    congr 1
    rw [lookup_firstDisplayMap]
    have hex : ∃ x ∈ rows, (fun x : Row => x.item_key == r.item_key) x = true :=
      ⟨r, hr, by simp⟩
    obtain ⟨x, hx⟩ := Option.isSome_iff_exists.mp (List.find?_isSome.mpr hex)
    rw [hx]
    unfold canonicalLabel
    rw [hx]
    rfl
  refine ⟨hmap, ?_⟩
  rw [hmap, List.pairwise_map]
  refine pairwise_of_all ?_ rows
  intro a b hk
  show canonicalLabel rows a.item_key = canonicalLabel rows b.item_key
  have h2 : a.item_key = b.item_key := hk
  rw [h2]

/-! ## Claims C4 (fetcher) and C9 (URL construction) -/

/-- Claim C4 (amended): `fetch_text` is total (never raises); any
exception — transport error, timeout, body read failure — yields `""`;
a completed response's body is returned verbatim regardless of its HTTP
status; the result is empty exactly for an exception or an empty body,
so absence of content is the sole failure signal. -/
theorem claim_C4_amended (o : FetchOutcome) :
    (fetch_text o = "" ↔ o = .failure ∨ ∃ st, o = .response st "") ∧
    (∀ st body, fetch_text (.response st body) = body) ∧
    fetch_text .failure = "" := by
  refine ⟨?_, fun _ _ => rfl, rfl⟩
  cases o with
  | failure => simp [fetch_text]
  | response st body =>
    show body = "" ↔ _
    constructor
    · intro h
      exact Or.inr ⟨st, by rw [h]⟩
    · intro h
      rcases h with h | ⟨s, h⟩
      · exact absurd h (by simp)
      · injection h with _ h2

/-- Counterexample to C4 as stated: an error HTTP status with a
non-empty body is returned verbatim, not as an empty result (the code
never inspects the status). -/
theorem claim_C4_counterexample :
    fetch_text (FetchOutcome.response 500 "Internal Server Error") =
      "Internal Server Error" ∧
    "Internal Server Error" ≠ "" := by
  exact ⟨rfl, by decide⟩

/-- Claim C9: the fetch URL appends `?date=<YYYY-MM-DD>` when the
requested date is the current day and `?menuDate=<YYYY-MM-DD>` for any
other day. -/
theorem claim_C9 (base_url : String) (date today : Date) :
    (date = today →
      menuUrl base_url date today = base_url ++ "?date=" ++ dateStr date) ∧
    (date ≠ today →
      menuUrl base_url date today = base_url ++ "?menuDate=" ++ dateStr date) := by
  constructor
  · intro h
    unfold menuUrl
    rw [if_pos h]
  · intro h
    unfold menuUrl
    rw [if_neg h]

/-- Witness for C9 at a concrete hall and dates, both branches. -/
theorem claim_C9_witness :
    menuUrl "https://dining.umich.edu/menus-locations/dining-halls/bursley/"
      ⟨2026, 10, 12⟩ ⟨2026, 10, 12⟩ =
      "https://dining.umich.edu/menus-locations/dining-halls/bursley/?date=2026-10-12" ∧
    menuUrl "https://dining.umich.edu/menus-locations/dining-halls/bursley/"
      ⟨2026, 10, 13⟩ ⟨2026, 10, 12⟩ =
      "https://dining.umich.edu/menus-locations/dining-halls/bursley/?menuDate=2026-10-13" := by
  constructor
  · rw [(claim_C9 _ _ _).1 rfl]
    decide
  · rw [(claim_C9 _ _ _).2 (by decide)]
    decide

/-! ## Lemmas: the result sort (claims C5 and C6) -/

theorem strLtEq_total {x y : String} (h : (strLt x y || x == y) = false) :
    (strLt y x || y == x) = true := by
  rcases Bool.or_eq_false_iff.mp h with ⟨h1, h2⟩
  by_cases hyx : strLt y x = true
  · simp [hyx]
  · have heq := strLt_connex h1 (Bool.of_not_eq_true hyx)
    rw [beq_eq_false_iff_ne] at h2
    exact absurd heq h2

theorem strLtEq_trans {x y z : String} (h1 : (strLt x y || x == y) = true)
    (h2 : (strLt y z || y == z) = true) : (strLt x z || x == z) = true := by
  rcases Bool.or_eq_true_iff.mp h1 with h | h
  · rcases Bool.or_eq_true_iff.mp h2 with g | g
    · simp [strLt_trans h g]
    · have hyz : y = z := beq_iff_eq.mp g
      subst hyz
      simp [h]
  · have hxy : x = y := beq_iff_eq.mp h
    subst hxy
    exact h2

theorem lexStep_total {a b : String} {r₁ r₂ : Bool} (h : r₁ = false → r₂ = true)
    (h0 : (strLt a b || (a == b && r₁)) = false) :
    (strLt b a || (b == a && r₂)) = true := by
  rcases Bool.or_eq_false_iff.mp h0 with ⟨hlt, hand⟩
  by_cases hba : strLt b a = true
  · simp [hba]
  · have hba' : strLt b a = false := Bool.of_not_eq_true hba
    have heq : a = b := strLt_connex hlt hba'
    subst heq
    have hr1 : r₁ = false := by
      cases hr : r₁
      · rfl
      · rw [hr] at hand
        simp at hand
    simp [h hr1]

theorem lexStep_trans {a b c : String} {r₁ r₂ r₃ : Bool}
    (h : r₁ = true → r₂ = true → r₃ = true)
    (h1 : (strLt a b || (a == b && r₁)) = true)
    (h2 : (strLt b c || (b == c && r₂)) = true) :
    (strLt a c || (a == c && r₃)) = true := by
  rcases Bool.or_eq_true_iff.mp h1 with hab | hab
  · rcases Bool.or_eq_true_iff.mp h2 with hbc | hbc
    · simp [strLt_trans hab hbc]
    · rw [Bool.and_eq_true] at hbc
      have hyz : b = c := beq_iff_eq.mp hbc.1
      subst hyz
      simp [hab]
  · rw [Bool.and_eq_true] at hab
    have hxy : a = b := beq_iff_eq.mp hab.1
    subst hxy
    rcases Bool.or_eq_true_iff.mp h2 with hbc | hbc
    · simp [hbc]
    · rw [Bool.and_eq_true] at hbc
      have hyz : a = c := beq_iff_eq.mp hbc.1
      subst hyz
      simp [h hab.2 hbc.2]

theorem rowLE_total {a b : Row} (h : rowLE a b = false) : rowLE b a = true := by
  unfold rowLE at h ⊢
  exact lexStep_total
    (fun h1 => lexStep_total
      (fun h2 => lexStep_total (fun h3 => strLtEq_total h3) h2) h1) h

theorem rowLE_trans {a b c : Row} (h1 : rowLE a b = true) (h2 : rowLE b c = true) :
    rowLE a c = true := by
  unfold rowLE at h1 h2 ⊢
  exact lexStep_trans
    (fun d1 d2 => lexStep_trans
      (fun e1 e2 => lexStep_trans (fun f1 f2 => strLtEq_trans f1 f2) e1 e2) d1 d2) h1 h2

theorem perm_insRow (x : Row) : ∀ (l : List Row), (insRow x l).Perm (x :: l)
  | [] => List.Perm.refl _
  | y :: ys => by
    unfold insRow
    by_cases h : rowLE x y = true
    · rw [if_pos h]
    · rw [if_neg h]
      exact ((perm_insRow x ys).cons y).trans (List.Perm.swap x y ys)

theorem perm_sortRows : ∀ (l : List Row), (sortRows l).Perm l
  | [] => List.Perm.refl _
  | x :: xs => by
    unfold sortRows at *
    rw [List.foldr_cons]
    exact (perm_insRow x _).trans ((perm_sortRows xs).cons x)

theorem pairwise_insRow {x : Row} : ∀ {l : List Row},
    l.Pairwise (fun a b => rowLE a b = true) →
    (insRow x l).Pairwise (fun a b => rowLE a b = true)
  | [], _ => by simp [insRow]
  | y :: ys, h => by
    rcases List.pairwise_cons.mp h with ⟨hy, hys⟩
    unfold insRow
    by_cases hxy : rowLE x y = true
    · rw [if_pos hxy]
      refine List.pairwise_cons.mpr ⟨?_, h⟩
      intro b hb
      rcases List.mem_cons.mp hb with rfl | hb
      · exact hxy
      · exact rowLE_trans hxy (hy b hb)
    · rw [if_neg hxy]
      have hyx := rowLE_total (Bool.of_not_eq_true hxy)
      refine List.pairwise_cons.mpr ⟨?_, pairwise_insRow hys⟩
      intro b hb
      rcases List.mem_cons.mp ((perm_insRow x ys).mem_iff.mp hb) with rfl | hb2
      · exact hyx
      · exact hy b hb2

theorem pairwise_sortRows : ∀ (l : List Row),
    (sortRows l).Pairwise (fun a b => rowLE a b = true)
  | [] => .nil
  | x :: xs => by
    unfold sortRows at *
    rw [List.foldr_cons]
    exact pairwise_insRow (pairwise_sortRows xs)

/-- `update_results` returns a permutation of the fully filtered
candidate rows. -/
theorem update_results_perm (records : List Row) (sel : Option String)
    (halls attrs : Option (List String)) :
    (update_results records sel halls attrs).Perm
      (attrStage (hallStage (itemStage records sel) halls) attrs) := by
  unfold update_results
  by_cases h : (attrStage (hallStage (itemStage records sel) halls) attrs).isEmpty = true
  · rw [if_pos h, List.isEmpty_iff.mp h]
  · rw [if_neg h]
    exact perm_sortRows _

/-- Claim C5 (amended): the result list of `update_results` is a
permutation of the filtered candidates, sorted by date ascending, then
hall, then meal, then item display label — each compared as Python
strings, i.e. lexicographically by code point and case-sensitively
(`rowLE`); meal names in particular sort alphabetically, not in
calendar order. -/
theorem claim_C5_amended (records : List Row) (sel : Option String)
    (halls attrs : Option (List String)) :
    (update_results records sel halls attrs).Pairwise (fun a b => rowLE a b = true) ∧
    (update_results records sel halls attrs).Perm
      (attrStage (hallStage (itemStage records sel) halls) attrs) := by
  refine ⟨?_, update_results_perm records sel halls attrs⟩
  unfold update_results
  by_cases h : (attrStage (hallStage (itemStage records sel) halls) attrs).isEmpty = true
  · rw [if_pos h]
    exact .nil
  · rw [if_neg h]
    exact pairwise_sortRows _

/-- A weekday Lunch row used by the C5 counterexample. -/
def cexRowLunch : Row :=
  ⟨"Grilled Cheese", "grilled cheese", "Grilled Cheese", "Lunch", "Bursley",
   "2026-10-13", [], "", "", [], ""⟩

/-- The same item served at Dinner. -/
def cexRowDinner : Row := { cexRowLunch with meal := "Dinner" }

/-- A lowercase-named item used by the C5 counterexample. -/
def cexRowApple : Row :=
  ⟨"apple crisp", "apple crisp", "apple crisp", "Lunch", "Bursley",
   "2026-10-13", [], "", "", [], ""⟩

/-- An uppercase-initial item served alongside it. -/
def cexRowBanana : Row :=
  ⟨"Banana Bread", "banana bread", "Banana Bread", "Lunch", "Bursley",
   "2026-10-13", [], "", "", [], ""⟩

/-- Counterexample to C5 as stated: on one date and hall the code
orders the Dinner row before the Lunch row (meal names are compared
lexicographically, not in calendar order, and `Dinner` < `Lunch`), and
orders `Banana Bread` before `apple crisp` (display labels compare
case-sensitively by code point, not case-insensitively). -/
theorem claim_C5_counterexample :
    update_results [cexRowLunch, cexRowDinner] none none none =
      [cexRowDinner, cexRowLunch] ∧
    cexRowLunch.meal = "Lunch" ∧ cexRowDinner.meal = "Dinner" ∧
    cexRowLunch.date = cexRowDinner.date ∧ cexRowLunch.hall = cexRowDinner.hall ∧
    WEEKDAY_MEALS = ["Breakfast", "Lunch", "Dinner"] ∧
    update_results [cexRowApple, cexRowBanana] none none none =
      [cexRowBanana, cexRowApple] ∧
    cexRowApple.meal = cexRowBanana.meal ∧
    strLt (casefoldStr cexRowApple.item_display)
      (casefoldStr cexRowBanana.item_display) = true := by
  refine ⟨by decide, rfl, rfl, rfl, rfl, rfl, by decide, rfl, by decide⟩

/-- Claim C6: `update_results` returns exactly the candidate rows (item
selection then hall filter) whose raw tag token list contains every
required attribute token (AND semantics, subset test); with no required
attributes (`None` or an empty list) the candidate set passes through
the attribute filter unchanged. -/
theorem claim_C6 (records : List Row) (sel : Option String)
    (halls attrs : Option (List String)) (r : Row) (f : List Row) :
    (r ∈ update_results records sel halls attrs ↔
      r ∈ hallStage (itemStage records sel) halls ∧
        ∀ a ∈ attrs.getD [], a ∈ r.tags) ∧
    attrStage f none = f ∧ attrStage f (some []) = f := by
  refine ⟨?_, rfl, rfl⟩
  rw [(update_results_perm records sel halls attrs).mem_iff]
  cases attrs with
  | none =>
    simp only [attrStage, Option.getD_none]
    simp
  | some need =>
    simp only [Option.getD_some]
    by_cases hn : need.isEmpty = true
    · have hnil : need = [] := List.isEmpty_iff.mp hn
      subst hnil
      simp only [attrStage, List.isEmpty_nil, if_true]
      simp
    · simp only [attrStage, if_neg hn]
      rw [List.mem_filter, List.all_eq_true]
      constructor
      · rintro ⟨h1, h2⟩
        exact ⟨h1, fun a ha => List.elem_iff.mp (h2 a ha)⟩
      · rintro ⟨h1, h2⟩
        exact ⟨h1, fun a ha => List.elem_iff.mpr (h2 a ha)⟩

/-! ## Lemmas: the build loop enumeration (claim C7) -/

/-- The loop-step unfolding of `daysFrom`. -/
theorem daysFrom_eq (c e : Nat) :
    daysFrom c e = if c ≤ e then c :: daysFrom (c + 1) e else [] := by
  by_cases h : c ≤ e
  · rw [if_pos h]
    unfold daysFrom
    have h1 : e + 1 - c = (e - c) + 1 := by omega
    have h2 : e + 1 - (c + 1) = e - c := by omega
    rw [h1, h2]
    show (if c ≤ e then c :: daysFromAux (e - c) (c + 1) e else []) =
      c :: daysFromAux (e - c) (c + 1) e
    rw [if_pos h]
  · rw [if_neg h]
    unfold daysFrom
    have h1 : e + 1 - c = 0 := by omega
    rw [h1]
    rfl

theorem daysFrom_mem : ∀ (c e d : Nat), (d ∈ daysFrom c e ↔ c ≤ d ∧ d ≤ e)
  | c, e, d => by
    rw [daysFrom_eq]
    by_cases h : c ≤ e
    · rw [if_pos h, List.mem_cons, daysFrom_mem (c + 1) e d]
      omega
    · rw [if_neg h]
      simp
      omega
termination_by c e _d => e + 1 - c
decreasing_by omega

theorem daysFrom_length : ∀ (c e : Nat), (daysFrom c e).length = e + 1 - c
  | c, e => by
    rw [daysFrom_eq]
    by_cases h : c ≤ e
    · rw [if_pos h, List.length_cons, daysFrom_length (c + 1) e]
      omega
    · rw [if_neg h]
      simp
      omega
termination_by c e => e + 1 - c
decreasing_by omega

theorem daysFrom_pairwise : ∀ (c e : Nat), (daysFrom c e).Pairwise (· < ·)
  | c, e => by
    rw [daysFrom_eq]
    by_cases h : c ≤ e
    · rw [if_pos h]
      refine List.pairwise_cons.mpr ⟨?_, daysFrom_pairwise (c + 1) e⟩
      intro d hd
      have := (daysFrom_mem (c + 1) e d).mp hd
      omega
    · rw [if_neg h]
      exact .nil
termination_by c e => e + 1 - c
decreasing_by omega

/-- One task per (hall, day) of the window: membership. -/
theorem buildTasks_mem (start endDay : Nat) (hn b : String) (d : Nat) :
    (hn, b, d) ∈ buildTasks start endDay ↔
      ((hn, b) ∈ DINING_HALLS ∧ start ≤ d ∧ d ≤ endDay) := by
  unfold buildTasks
  rw [List.mem_flatMap]
  constructor
  · rintro ⟨d', hd', hmem⟩
    rcases List.mem_map.mp hmem with ⟨x, hx, heq⟩
    simp only [Prod.ext_iff] at heq
    have hxeq : x = (hn, b) := Prod.ext heq.1 heq.2.1
    rw [← heq.2.2]
    exact ⟨hxeq ▸ hx, (daysFrom_mem start endDay d').mp hd'⟩
  · rintro ⟨hhb, h1, h2⟩
    exact ⟨d, (daysFrom_mem start endDay d).mpr ⟨h1, h2⟩,
      List.mem_map.mpr ⟨(hn, b), hhb, rfl⟩⟩

/-- One task per (hall, day) of the window: no duplicates. -/
theorem buildTasks_nodup (start endDay : Nat) : (buildTasks start endDay).Nodup := by
  unfold buildTasks
  rw [List.nodup_flatMap]
  constructor
  · intro _ _
    refine List.Nodup.map ?_ (by decide)
    intro x y hxy
    simp only [Prod.ext_iff] at hxy
    exact Prod.ext hxy.1 hxy.2.1
  · refine (daysFrom_pairwise start endDay).imp ?_
    intro d1 d2 hlt
    intro x hx1 hx2
    rcases List.mem_map.mp hx1 with ⟨u, _, rfl⟩
    rcases List.mem_map.mp hx2 with ⟨v, _, heq⟩
    simp only [Prod.ext_iff] at heq
    omega

/-- Forget the display label (used to compare index rows to raw task
results up to the canonical-label pass). -/
def eraseDisplay (r : Row) : Row := { r with item_display := "" }

/-- Claim C7 (amended): the builder dispatches exactly one fetch+parse
task per (hall, day) over the full product of `DINING_HALLS` with every
day of `[start, end]` inclusive (so `end = start + 14` gives 15 days
per hall), and the built index is the concatenation of the task results
in task order with the canonical first-seen display label applied to
each row (all other fields are exactly those of the concatenation). -/
theorem claim_C7_amended (parse : String → String → Nat → List Row)
    (start endDay : Nat) (hn b : String) (d : Nat) :
    ((hn, b, d) ∈ buildTasks start endDay ↔
      ((hn, b) ∈ DINING_HALLS ∧ start ≤ d ∧ d ≤ endDay)) ∧
    (buildTasks start endDay).Nodup ∧
    (daysFrom start (start + 14)).length = 15 ∧
    build_index_rows parse start endDay =
      relabel (((buildTasks start endDay).map fun t => parse t.1 t.2.1 t.2.2).flatten) ∧
    (build_index_rows parse start endDay).map eraseDisplay =
      (((buildTasks start endDay).map fun t => parse t.1 t.2.1 t.2.2).flatten).map
        eraseDisplay := by
  have h4 : build_index_rows parse start endDay =
      relabel (((buildTasks start endDay).map fun t => parse t.1 t.2.1 t.2.2).flatten) := by
    unfold build_index_rows
    by_cases h : (((buildTasks start endDay).map fun t =>
        parse t.1 t.2.1 t.2.2).flatten).isEmpty = true
    · rw [if_pos h, List.isEmpty_iff.mp h]
      rfl
    · rw [if_neg h]
  refine ⟨buildTasks_mem start endDay hn b d, buildTasks_nodup start endDay,
    by rw [daysFrom_length]; omega, h4, ?_⟩
  rw [h4]
  unfold relabel
  rw [List.map_map]
  exact List.map_congr_left fun r _ => rfl

/-- Two duplicate-key rows with different raw names, fetched once. -/
def cexTaco1 : Row :=
  ⟨"Taco Bar", "taco bar", "Taco Bar", "Lunch", "Bursley", "2026-10-12",
   [], "", "", [], ""⟩

/-- The same item later with different casing. -/
def cexTaco2 : Row :=
  ⟨"TACO BAR", "taco bar", "TACO BAR", "Dinner", "Bursley", "2026-10-12",
   [], "", "", [], ""⟩

/-- A concrete fetch+parse stub for the C7 counterexample. -/
def cexParse (hn : String) (_ : String) (d : Nat) : List Row :=
  if hn = "Bursley" ∧ d = 0 then [cexTaco1, cexTaco2] else []

/-- Counterexample to C7 as stated: the built index is not exactly the
concatenation of the task results — the canonical-label pass rewrites
the second row's display label from `TACO BAR` to `Taco Bar`. -/
theorem claim_C7_counterexample :
    build_index_rows cexParse 0 0 ≠
      ((buildTasks 0 0).map fun t => cexParse t.1 t.2.1 t.2.2).flatten := by
  decide

/-! ## Lemmas: whitespace normalisation (claim C8) -/

/-- Every whitespace character the collapse emits is a plain space. -/
theorem collapse_spaces_blank : ∀ (b : Bool) (l : List Char) (c : Char),
    c ∈ collapseWS b l → isSpaceChar c = true → c = ' '
  | _, [], c => by simp [collapseWS]
  | b, d :: ds, c => by
    unfold collapseWS
    by_cases hd : isSpaceChar d = true
    · rw [if_pos hd]
      cases b with
      | true =>
        simp only [if_true]
        exact collapse_spaces_blank true ds c
      | false =>
        simp only [Bool.false_eq_true, if_false]
        intro hmem hsp
        rcases List.mem_cons.mp hmem with rfl | hmem
        · rfl
        · exact collapse_spaces_blank true ds c hmem hsp
    · rw [if_neg hd]
      intro hmem hsp
      rcases List.mem_cons.mp hmem with rfl | hmem
      · exact absurd hsp hd
      · exact collapse_spaces_blank false ds c hmem hsp

/-- After a space was just emitted, the collapse output starts with a
non-space (runs are collapsed). -/
theorem collapse_head_true : ∀ (l : List Char),
    ∀ c ∈ (collapseWS true l).head?, isSpaceChar c = false
  | [] => by simp [collapseWS]
  | d :: ds => by
    unfold collapseWS
    by_cases hd : isSpaceChar d = true
    · rw [if_pos hd]
      simp only [if_true]
      exact collapse_head_true ds
    · rw [if_neg hd]
      intro c hc
      simp only [List.head?_cons, Option.mem_def, Option.some.injEq] at hc
      rw [← hc]
      exact Bool.of_not_eq_true hd

/-- The collapse output never contains two adjacent whitespace
characters. -/
theorem collapse_chain : ∀ (b : Bool) (l : List Char),
    List.Chain' (fun a c => ¬(isSpaceChar a = true ∧ isSpaceChar c = true))
      (collapseWS b l)
  | _, [] => by unfold collapseWS; exact trivial
  | b, d :: ds => by
    unfold collapseWS
    by_cases hd : isSpaceChar d = true
    · rw [if_pos hd]
      cases b with
      | true =>
        simp only [if_true]
        exact collapse_chain true ds
      | false =>
        simp only [Bool.false_eq_true, if_false]
        refine List.chain'_cons'.mpr ⟨?_, collapse_chain true ds⟩
        intro y hy
        exact fun hcon => by
          rw [collapse_head_true ds y hy] at hcon
          exact absurd hcon.2 (by simp)
    · rw [if_neg hd]
      refine List.chain'_cons'.mpr ⟨?_, collapse_chain false ds⟩
      intro y _
      exact fun hcon => hd hcon.1

/-- The collapse preserves the non-whitespace characters. -/
theorem collapse_filter : ∀ (b : Bool) (l : List Char),
    (collapseWS b l).filter (fun c => !isSpaceChar c) =
      l.filter (fun c => !isSpaceChar c)
  | _, [] => rfl
  | b, d :: ds => by
    unfold collapseWS
    by_cases hd : isSpaceChar d = true
    · rw [if_pos hd, List.filter_cons_of_neg (by simp [hd])]
      cases b with
      | true =>
        simp only [if_true]
        exact collapse_filter true ds
      | false =>
        simp only [Bool.false_eq_true, if_false]
        rw [List.filter_cons_of_neg (by simp [isSpaceChar])]
        exact collapse_filter true ds
    · rw [if_neg hd, List.filter_cons_of_pos (by simp [hd]),
        List.filter_cons_of_pos (by simp [hd])]
      rw [collapse_filter false ds]

/-- Collapsing an already collapsed text is the identity. -/
theorem collapse_id : ∀ (b : Bool) (l : List Char),
    List.Chain' (fun a c => ¬(isSpaceChar a = true ∧ isSpaceChar c = true)) l →
    (∀ c ∈ l, isSpaceChar c = true → c = ' ') →
    (b = true → ∀ c ∈ l.head?, isSpaceChar c = false) →
    collapseWS b l = l
  | _, [], _, _, _ => rfl
  | b, d :: ds, hch, hbl, hhd => by
    unfold collapseWS
    rcases List.chain'_cons'.mp hch with ⟨hpair, htail⟩
    by_cases hd : isSpaceChar d = true
    · rw [if_pos hd]
      have hb : b = false := by
        cases b with
        | false => rfl
        | true =>
          have := hhd rfl d (by simp)
          rw [this] at hd
          exact absurd hd (by simp)
      subst hb
      simp only [Bool.false_eq_true, if_false]
      have hdeq : d = ' ' := hbl d (by simp) hd
      have hhd2 : ∀ c ∈ ds.head?, isSpaceChar c = false := by
        intro c hc
        cases hcs : ds.head? with
        | none => rw [hcs] at hc; exact absurd hc (by simp)
        | some y =>
          rw [hcs] at hc
          have hp := hpair y (by rw [hcs]; rfl)
          have hcy : c = y := (by simpa using hc : y = c).symm
          rw [hcy]
          by_cases hy : isSpaceChar y = true
          · exact absurd ⟨hd, hy⟩ hp
          · exact Bool.of_not_eq_true hy
      rw [collapse_id true ds htail (fun c hc => hbl c (List.mem_cons_of_mem _ hc))
        (fun _ => hhd2), hdeq]
    · rw [if_neg hd]
      rw [collapse_id false ds htail (fun c hc => hbl c (List.mem_cons_of_mem _ hc))
        (by simp)]

theorem dropWhile_id_of_head {p : Char → Bool} : ∀ {l : List Char},
    (∀ c ∈ l.head?, p c = false) → l.dropWhile p = l
  | [], _ => rfl
  | c :: cs, h => by
    rw [List.dropWhile_cons, if_neg (by rw [h c (by simp)]; simp)]

theorem dropWhile_filter_eq : ∀ (l : List Char),
    (l.dropWhile isSpaceChar).filter (fun c => !isSpaceChar c) =
      l.filter (fun c => !isSpaceChar c)
  | [] => rfl
  | c :: cs => by
    rw [List.dropWhile_cons]
    by_cases h : isSpaceChar c = true
    · rw [if_pos h, List.filter_cons_of_neg (by simp [h])]
      exact dropWhile_filter_eq cs
    · rw [if_neg h]

/-- Stripping the ends preserves the no-adjacent-spaces property. -/
theorem strip_chain {l : List Char}
    (h : List.Chain' (fun a c => ¬(isSpaceChar a = true ∧ isSpaceChar c = true)) l) :
    List.Chain' (fun a c => ¬(isSpaceChar a = true ∧ isSpaceChar c = true))
      (stripEnds l) := by
  unfold stripEnds
  have h1 : List.Chain' (fun a c => ¬(isSpaceChar a = true ∧ isSpaceChar c = true))
      (l.dropWhile isSpaceChar) := h.suffix (List.dropWhile_suffix isSpaceChar)
  have h1f : List.Chain'
      (flip (fun a c => ¬(isSpaceChar a = true ∧ isSpaceChar c = true)))
      (l.dropWhile isSpaceChar) := h1.imp fun a b hab hcon => hab ⟨hcon.2, hcon.1⟩
  have h2 : List.Chain' (fun a c => ¬(isSpaceChar a = true ∧ isSpaceChar c = true))
      (l.dropWhile isSpaceChar).reverse := List.chain'_reverse.mpr h1f
  have h3 : List.Chain' (fun a c => ¬(isSpaceChar a = true ∧ isSpaceChar c = true))
      ((l.dropWhile isSpaceChar).reverse.dropWhile isSpaceChar) :=
    h2.suffix (List.dropWhile_suffix isSpaceChar)
  have h3f : List.Chain'
      (flip (fun a c => ¬(isSpaceChar a = true ∧ isSpaceChar c = true)))
      ((l.dropWhile isSpaceChar).reverse.dropWhile isSpaceChar) :=
    h3.imp fun a b hab hcon => hab ⟨hcon.2, hcon.1⟩
  exact List.chain'_reverse.mpr h3f

theorem strip_mem {l : List Char} {c : Char} (h : c ∈ stripEnds l) : c ∈ l := by
  unfold stripEnds at h
  rw [List.mem_reverse] at h
  have h1 := List.Sublist.mem h (List.dropWhile_suffix isSpaceChar).sublist
  rw [List.mem_reverse] at h1
  exact List.Sublist.mem h1 (List.dropWhile_suffix isSpaceChar).sublist

theorem strip_filter (l : List Char) :
    (stripEnds l).filter (fun c => !isSpaceChar c) =
      l.filter (fun c => !isSpaceChar c) := by
  unfold stripEnds
  rw [List.filter_reverse, dropWhile_filter_eq, List.filter_reverse,
    List.reverse_reverse, dropWhile_filter_eq]

theorem strip_head {l : List Char} : ∀ c ∈ (stripEnds l).head?, isSpaceChar c = false := by
  intro c hc
  unfold stripEnds at hc
  have hsuff : ((l.dropWhile isSpaceChar).reverse.dropWhile isSpaceChar) <:+
      (l.dropWhile isSpaceChar).reverse := List.dropWhile_suffix isSpaceChar
  have hpref : ((l.dropWhile isSpaceChar).reverse.dropWhile isSpaceChar).reverse <+:
      l.dropWhile isSpaceChar := by
    have := List.reverse_prefix.mpr hsuff
    rwa [List.reverse_reverse] at this
  rcases hpref with ⟨t, ht⟩
  cases hbr : ((l.dropWhile isSpaceChar).reverse.dropWhile isSpaceChar).reverse with
  | nil =>
    rw [hbr] at hc
    exact absurd hc (by simp)
  | cons x xs =>
    rw [hbr] at hc ht
    have hcx : c = x := (by simpa using hc : x = c).symm
    have hA := List.head?_dropWhile_not isSpaceChar l
    rw [← ht] at hA
    simp only [List.cons_append, List.head?_cons] at hA
    rw [hcx]
    exact hA

theorem strip_last {l : List Char} : ∀ c ∈ (stripEnds l).getLast?, isSpaceChar c = false := by
  intro c hc
  unfold stripEnds at hc
  rw [List.getLast?_reverse] at hc
  cases hbh : ((l.dropWhile isSpaceChar).reverse.dropWhile isSpaceChar).head? with
  | none =>
    rw [hbh] at hc
    exact absurd hc (by simp)
  | some y =>
    rw [hbh] at hc
    have hcy : c = y := (by simpa using hc : y = c).symm
    have hB := List.head?_dropWhile_not isSpaceChar (l.dropWhile isSpaceChar).reverse
    rw [hbh] at hB
    rw [hcy]
    exact hB

theorem strip_id {l : List Char}
    (hh : ∀ c ∈ l.head?, isSpaceChar c = false)
    (hl : ∀ c ∈ l.getLast?, isSpaceChar c = false) :
    stripEnds l = l := by
  unfold stripEnds
  rw [dropWhile_id_of_head hh, dropWhile_id_of_head (by
    intro c hc
    rw [List.head?_reverse] at hc
    exact hl c hc), List.reverse_reverse]

/-- Normalising a text that is already collapsed, blank-only and
trimmed is the identity. -/
theorem normalize_id_data {l : List Char}
    (hch : List.Chain' (fun a c => ¬(isSpaceChar a = true ∧ isSpaceChar c = true)) l)
    (hbl : ∀ c ∈ l, isSpaceChar c = true → c = ' ')
    (hh : ∀ c ∈ l.head?, isSpaceChar c = false)
    (hl : ∀ c ∈ l.getLast?, isSpaceChar c = false) :
    stripEnds (collapseWS false l) = l := by
  rw [collapse_id false l hch hbl (by simp)]
  exact strip_id hh hl

theorem normalize_chain (s : String) :
    List.Chain' (fun a c => ¬(isSpaceChar a = true ∧ isSpaceChar c = true))
      (normalizeSpaces s).data :=
  strip_chain (collapse_chain false s.data)

theorem normalize_blanks (s : String) :
    ∀ c ∈ (normalizeSpaces s).data, isSpaceChar c = true → c = ' ' :=
  fun c hc hsp => collapse_spaces_blank false s.data c (strip_mem hc) hsp

theorem normalize_head (s : String) :
    ∀ c ∈ (normalizeSpaces s).data.head?, isSpaceChar c = false :=
  strip_head

theorem normalize_last (s : String) :
    ∀ c ∈ (normalizeSpaces s).data.getLast?, isSpaceChar c = false :=
  strip_last

/-- Claim C8: `item_key` and `_normalize_spaces` are idempotent;
normalisation maps `None` and `""` to `""` (and is a total function);
its output has no leading or trailing whitespace, no two adjacent
whitespace characters, only plain-space whitespace, and preserves the
non-whitespace characters in order — i.e. every whitespace run becomes
one space and the ends are trimmed. -/
theorem claim_C8 (x : String) :
    item_key (item_key x) = item_key x ∧
    normalizeSpaces (normalizeSpaces x) = normalizeSpaces x ∧
    normalizeSpacesOpt none = "" ∧
    normalizeSpaces "" = "" ∧
    (∀ c ∈ (normalizeSpaces x).data, isSpaceChar c = true → c = ' ') ∧
    List.Chain' (fun a c => ¬(isSpaceChar a = true ∧ isSpaceChar c = true))
      (normalizeSpaces x).data ∧
    (∀ c ∈ (normalizeSpaces x).data.head?, isSpaceChar c = false) ∧
    (∀ c ∈ (normalizeSpaces x).data.getLast?, isSpaceChar c = false) ∧
    (normalizeSpaces x).data.filter (fun c => !isSpaceChar c) =
      x.data.filter (fun c => !isSpaceChar c) := by
  have hnn : ∀ s : String, normalizeSpaces (normalizeSpaces s) = normalizeSpaces s := by
    intro s
    apply String.ext
    show stripEnds (collapseWS false (normalizeSpaces s).data) = (normalizeSpaces s).data
    exact normalize_id_data (normalize_chain s) (normalize_blanks s)
      (normalize_head s) (normalize_last s)
  refine ⟨?_, hnn x, rfl, rfl, normalize_blanks x, normalize_chain x,
    normalize_head x, normalize_last x, ?_⟩
  · show casefoldStr (normalizeSpaces (casefoldStr (normalizeSpaces x))) =
      casefoldStr (normalizeSpaces x)
    have hM : normalizeSpaces (casefoldStr (normalizeSpaces x)) =
        casefoldStr (normalizeSpaces x) := by
      apply String.ext
      show stripEnds (collapseWS false ((normalizeSpaces x).data.map toLowerCh)) =
        (normalizeSpaces x).data.map toLowerCh
      refine normalize_id_data ?_ ?_ ?_ ?_
      · rw [List.chain'_map]
        refine (normalize_chain x).imp ?_
        intro a b hab hcon
        rw [isSpaceChar_toLowerCh, isSpaceChar_toLowerCh] at hcon
        exact hab hcon
      · intro c hc hsp
        rcases List.mem_map.mp hc with ⟨d, hd, rfl⟩
        rw [isSpaceChar_toLowerCh] at hsp
        rw [normalize_blanks x d hd hsp]
        decide
      · intro c hc
        rw [List.head?_map] at hc
        cases hh : (normalizeSpaces x).data.head? with
        | none =>
          rw [hh] at hc
          exact absurd hc (by simp)
        | some y =>
          rw [hh] at hc
          have hcy : c = toLowerCh y := (by simpa using hc : toLowerCh y = c).symm
          rw [hcy, isSpaceChar_toLowerCh]
          exact normalize_head x y (by rw [hh]; rfl)
      · intro c hc
        rw [List.getLast?_map] at hc
        cases hh : (normalizeSpaces x).data.getLast? with
        | none =>
          rw [hh] at hc
          exact absurd hc (by simp)
        | some y =>
          rw [hh] at hc
          have hcy : c = toLowerCh y := (by simpa using hc : toLowerCh y = c).symm
          rw [hcy, isSpaceChar_toLowerCh]
          exact normalize_last x y (by rw [hh]; rfl)
    rw [hM]
    apply String.ext
    show ((normalizeSpaces x).data.map toLowerCh).map toLowerCh =
      (normalizeSpaces x).data.map toLowerCh
    rw [List.map_map]
    exact List.map_congr_left fun c _ => toLowerCh_idem c
  · show (stripEnds (collapseWS false x.data)).filter (fun c => !isSpaceChar c) = _
    rw [strip_filter, collapse_filter]

end Food
